import Mathlib

/-!
Pose2: 2D rigid transforms and their Jacobians.

A shallow embedding of `Pose2.cpp` (`Pose2::matrix` and the free functions
`transform_to`, `between`, `bearing`, `range` with their optional Jacobian
outputs) and of the group contract and the structure tags of `concepts.h`
(`check_invariants`, the two group-generating definitions, the tag
assertions of the concept classes).  The C++ `double`
is read as an element of a field `K`; the definitions are generic in `K`
so that they evaluate over `ℚ`, and the analytic statements are made over
`ℝ`.  An optional output `boost::optional<Matrix&>` is a `Bool` saying
whether the caller passed it, and the function returns `some M` for an
output it wrote and `none` for one it left alone.  The square root of
`<cmath>` is a parameter of the definitions that use it and is instantiated
with `Real.sqrt` in the statements.  No statement depends on the value of a
quotient by zero: where the code divides by a zero norm the quotient is kept
as written, `x / 0`.
-/

namespace gtsam

/-! ## Data model -/

/-- Modelled from the spec: `Point2`, an ordered pair `(x, y)`; the class
itself is declared in `Point2.h`. -/
structure Point2 (K : Type) where
  x : K
  y : K
deriving DecidableEq, Repr

/-- Modelled from the spec: `Rot2`, a rotation stored as its cosine/sine
pair `(c, s)`; the class itself is declared in `Rot2.h`. The constructor
stores the pair as given. -/
structure Rot2 (K : Type) where
  c : K
  s : K
deriving DecidableEq, Repr

/-- Modelled from the spec: `Pose2`, the pair `(Rot2 r, Point2 t)`; the class
itself is declared in `Pose2.h`. -/
structure Pose2 (K : Type) where
  r : Rot2 K
  t : Point2 K
deriving DecidableEq, Repr

section Defs

variable {K : Type} [Field K]

/-- Modelled from the spec: `Point2::operator-`, componentwise difference. -/
def Point2.sub (p q : Point2 K) : Point2 K := ⟨p.x - q.x, p.y - q.y⟩

/-- Modelled from the spec: `Point2::operator+`, componentwise sum. -/
def Point2.add (p q : Point2 K) : Point2 K := ⟨p.x + q.x, p.y + q.y⟩

/-- Modelled from the spec: `Point2::norm` with the square root passed in,
`sqrt (x² + y²)`. -/
def Point2.norm (sqrt : K → K) (p : Point2 K) : K := sqrt (p.x * p.x + p.y * p.y)

/-- The unit-norm invariant of a rotation, `c² + s² = 1`. -/
def Rot2.IsUnit (R : Rot2 K) : Prop := R.c * R.c + R.s * R.s = 1

/-- Modelled from the spec: `Rot2::unrotate`, applying the transpose:
`(c·x + s·y, −s·x + c·y)`. -/
def Rot2.unrotate (R : Rot2 K) (p : Point2 K) : Point2 K :=
  ⟨R.c * p.x + R.s * p.y, -R.s * p.x + R.c * p.y⟩

/-- Modelled from the spec: `Rot2::rotate`, applying the rotation matrix
`[[c, -s], [s, c]]` to a point. -/
def Rot2.rotate (R : Rot2 K) (p : Point2 K) : Point2 K :=
  ⟨R.c * p.x - R.s * p.y, R.s * p.x + R.c * p.y⟩

/-- Modelled from the spec: `Rot2::matrix`, the rotation matrix
`[[c, -s], [s, c]]`. -/
def Rot2.matrix (R : Rot2 K) : Matrix (Fin 2) (Fin 2) K :=
  !![R.c, -R.s; R.s, R.c]

/-- Modelled from the spec: `Rot2::transpose`, the matrix `Rᵀ`,
`[[c, s], [-s, c]]`. -/
def Rot2.transpose (R : Rot2 K) : Matrix (Fin 2) (Fin 2) K :=
  !![R.c, R.s; -R.s, R.c]

/-- Modelled from the spec: composition of rotations,
`(c1c2 − s1s2, s1c2 + c1s2)`. -/
def Rot2.compose (a b : Rot2 K) : Rot2 K :=
  ⟨a.c * b.c - a.s * b.s, a.s * b.c + a.c * b.s⟩

/-- Modelled from the spec: inverse of a rotation, the transpose `(c, −s)`. -/
def Rot2.inverse (a : Rot2 K) : Rot2 K := ⟨a.c, -a.s⟩

/-- Modelled from the spec: the SE(2) product of poses, rotation `Ra·Rb` and
translation `ta + Ra·tb`; `compose` itself is declared in `Pose2.h`. -/
def compose (a b : Pose2 K) : Pose2 K :=
  ⟨a.r.compose b.r, a.t.add (a.r.rotate b.t)⟩

/-- Modelled from the spec: the inverse of a pose, rotation `Raᵀ` and
translation `−Raᵀ·ta`; `inverse` itself is declared in `Pose2.h`. -/
def inverse (a : Pose2 K) : Pose2 K :=
  ⟨a.r.inverse, ⟨-(a.r.unrotate a.t).x, -(a.r.unrotate a.t).y⟩⟩

/-- The constant `I3 = eye(3)` of `Pose2.cpp`. -/
def I3 : Matrix (Fin 3) (Fin 3) K := 1

/-! ## The functions of `Pose2.cpp` -/

/-- `transform_to(pose, point, H1, H2)`: the point in the pose's frame, with
the Jacobians the caller asked for. -/
def transform_to (pose : Pose2 K) (point : Point2 K) (H1 H2 : Bool) :
    Point2 K × Option (Matrix (Fin 2) (Fin 3) K) × Option (Matrix (Fin 2) (Fin 2) K) :=
  let R := pose.r
  let d := point.sub pose.t
  let q := R.unrotate d
  if !H1 && !H2 then (q, none, none)
  else
    (q,
     if H1 then some !![-1, 0, q.y; 0, -1, -q.x] else none,
     if H2 then some R.transpose else none)

/-- `Dtransform_to1(pose, point)`: the matrix `H` that `transform_to` writes
as its first Jacobian (`H` starts out empty and is always written). -/
def Dtransform_to1 (pose : Pose2 K) (point : Point2 K) : Matrix (Fin 2) (Fin 3) K :=
  ((transform_to pose point true false).2.1).getD 0

/-- `Dtransform_to2(pose, point)`: the matrix `H` that `transform_to` writes
as its second Jacobian (`H` starts out empty and is always written). -/
def Dtransform_to2 (pose : Pose2 K) (point : Point2 K) : Matrix (Fin 2) (Fin 2) K :=
  ((transform_to pose point false true).2.2).getD 0

/-- `between(p1, p2, H1, H2)`: the relative pose, with the Jacobians the
caller asked for. -/
def between (p1 p2 : Pose2 K) (H1 H2 : Bool) :
    Pose2 K × Option (Matrix (Fin 3) (Fin 3) K) × Option (Matrix (Fin 3) (Fin 3) K) :=
  let c1 := p1.r.c
  let s1 := p1.r.s
  let c2 := p2.r.c
  let s2 := p2.r.s
  let c := c1 * c2 + s1 * s2
  let s := -s1 * c2 + c1 * s2
  let R : Rot2 K := ⟨c, s⟩
  let dt := p2.t.sub p1.t
  let x := dt.x
  let y := dt.y
  let t : Point2 K := ⟨c1 * x + s1 * y, -s1 * x + c1 * y⟩
  let h1 :=
    if H1 then
      let dt1 := -s2 * x + c2 * y
      let dt2 := -c2 * x - s2 * y
      some !![-c, -s, dt1; s, -c, dt2; 0, 0, -1]
    else none
  let h2 := if H2 then some I3 else none
  (⟨R, t⟩, h1, h2)

/-- `range(pose, point)`: the norm of the point in the pose's frame. -/
def range (sqrt : K → K) (pose : Pose2 K) (point : Point2 K) : K :=
  let d := (transform_to pose point false false).1
  d.norm sqrt

/-- `range(pose, point, H1, H2)`: the distance with the Jacobians the caller
asked for. The quotients `x / n` and `y / n` are taken without a test on `n`. -/
def range_H (sqrt : K → K) (pose : Pose2 K) (point : Point2 K) (H1 H2 : Bool) :
    K × Option (Matrix (Fin 1) (Fin 3) K) × Option (Matrix (Fin 1) (Fin 2) K) :=
  if !H1 && !H2 then (range sqrt pose point, none, none)
  else
    let d := (transform_to pose point false false).1
    let x := d.x
    let y := d.y
    let d2 := x * x + y * y
    let n := sqrt d2
    let D_result_d : Matrix (Fin 1) (Fin 2) K := !![x / n, y / n]
    (n,
     if H1 then some (D_result_d * Dtransform_to1 pose point) else none,
     if H2 then some (D_result_d * Dtransform_to2 pose point) else none)

end Defs

/-! ## Poses given by an angle (over the reals) -/

/-- Modelled from the spec: `Rot2` from an angle, the pair `(cos θ, sin θ)`. -/
noncomputable def Rot2.fromAngle (θ : ℝ) : Rot2 ℝ := ⟨Real.cos θ, Real.sin θ⟩

/-- Modelled from the spec: `Pose2` from `(angle, x, y)`. -/
noncomputable def Pose2.ofThetaXY (θ x y : ℝ) : Pose2 ℝ := ⟨Rot2.fromAngle θ, ⟨x, y⟩⟩

/-- Modelled from the spec: `Rot2::theta`, the angle `atan2(s, c)` of the
rotation `(c, s)`, taken in `(−π, π]`. -/
noncomputable def Rot2.theta (R : Rot2 ℝ) : ℝ := Complex.arg ⟨R.c, R.s⟩

/-- The pose `Pose2(ξ)` of a tangent vector `ξ = (δx, δy, δθ)`: translation
`(δx, δy)` and rotation angle `δθ`. -/
noncomputable def Pose2.ofTangent (ξ : Fin 3 → ℝ) : Pose2 ℝ :=
  Pose2.ofThetaXY (ξ 2) (ξ 0) (ξ 1)

/-- The local coordinates of a pose `r'` about a pose `r`: the `(x, y, θ)` of
`compose(inverse(r), r')`. -/
noncomputable def localCoordinates (r r' : Pose2 ℝ) : Fin 3 → ℝ :=
  ![(compose (inverse r) r').t.x, (compose (inverse r) r').t.y,
    (compose (inverse r) r').r.theta]

/-- The map `ξ ↦` local coordinates of `between(compose(p1, Pose2(ξ)), p2)`
about `between(p1, p2)`, whose Jacobian at `ξ = 0` the first Jacobian of
`between` is meant to be. -/
noncomputable def betweenPerturbed1 (p1 p2 : Pose2 ℝ) (ξ : Fin 3 → ℝ) : Fin 3 → ℝ :=
  localCoordinates (between p1 p2 false false).1
    (between (compose p1 (Pose2.ofTangent ξ)) p2 false false).1

/-- The map `ξ ↦` local coordinates of `between(p1, compose(p2, Pose2(ξ)))`
about `between(p1, p2)`, whose Jacobian at `ξ = 0` the second Jacobian of
`between` is meant to be. -/
noncomputable def betweenPerturbed2 (p1 p2 : Pose2 ℝ) (ξ : Fin 3 → ℝ) : Fin 3 → ℝ :=
  localCoordinates (between p1 p2 false false).1
    (between p1 (compose p2 (Pose2.ofTangent ξ)) false false).1

/-- The point `transform_to` returns for the pose perturbed in its own frame
by a rotation angle `θ` and a translation `(x, y)`, that is for
`compose(pose, Pose2(θ, x, y))`. -/
noncomputable def perturbedLocalPoint (pose : Pose2 ℝ) (point : Point2 ℝ) (θ x y : ℝ) :
    Point2 ℝ :=
  (transform_to (compose pose (Pose2.ofThetaXY θ x y)) point false false).1

/-- Column `k` of `H` is the derivative of the local point with respect to a
perturbation of the pose's rotation angle. -/
def IsRotationColumn (pose : Pose2 ℝ) (point : Point2 ℝ) (H : Matrix (Fin 2) (Fin 3) ℝ)
    (k : Fin 3) : Prop :=
  HasDerivAt (fun θ => (perturbedLocalPoint pose point θ 0 0).x) (H 0 k) 0 ∧
  HasDerivAt (fun θ => (perturbedLocalPoint pose point θ 0 0).y) (H 1 k) 0

/-- Column `k` of `H` is the derivative of the local point with respect to a
perturbation of the pose's translation along its own x axis. -/
def IsTranslationXColumn (pose : Pose2 ℝ) (point : Point2 ℝ)
    (H : Matrix (Fin 2) (Fin 3) ℝ) (k : Fin 3) : Prop :=
  HasDerivAt (fun x => (perturbedLocalPoint pose point 0 x 0).x) (H 0 k) 0 ∧
  HasDerivAt (fun x => (perturbedLocalPoint pose point 0 x 0).y) (H 1 k) 0

/-- Column `k` of `H` is the derivative of the local point with respect to a
perturbation of the pose's translation along its own y axis. -/
def IsTranslationYColumn (pose : Pose2 ℝ) (point : Point2 ℝ)
    (H : Matrix (Fin 2) (Fin 3) ℝ) (k : Fin 3) : Prop :=
  HasDerivAt (fun y => (perturbedLocalPoint pose point 0 0 y).x) (H 0 k) 0 ∧
  HasDerivAt (fun y => (perturbedLocalPoint pose point 0 0 y).y) (H 1 k) 0

/-! ## `Pose2::matrix`, `bearing` -/

section Defs2

variable {K : Type} [Field K]

/-- Modelled from the spec: `stack` of `Matrix.h`, the rows of `A` above the
rows of `B`. -/
def stack {m p n : ℕ} (A : Matrix (Fin m) (Fin n) K) (B : Matrix (Fin p) (Fin n) K) :
    Matrix (Fin (m + p)) (Fin n) K :=
  Matrix.of (Fin.append A B)

/-- Modelled from the spec: `collect` of `Matrix.h`, the columns of `A` to the
left of the columns of `B`. -/
def collect {m n p : ℕ} (A : Matrix (Fin m) (Fin n) K) (B : Matrix (Fin m) (Fin p) K) :
    Matrix (Fin m) (Fin (n + p)) K :=
  Matrix.of fun i => Fin.append (A i) (B i)

/-- Modelled from the spec: `zeros(m, n)` of `Matrix.h`, the zero matrix. -/
def zeros (m n : ℕ) : Matrix (Fin m) (Fin n) K := 0

/-- `Pose2::matrix()`: the rotation matrix stacked over a zero row, with the
column `(t.x, t.y, 1)` appended. -/
def Pose2.matrix (pose : Pose2 K) : Matrix (Fin 3) (Fin 3) K :=
  let R := pose.r.matrix
  let Z : Matrix (Fin 1) (Fin 2) K := zeros 1 2
  let R := stack R Z
  let T : Matrix (Fin 3) (Fin 1) K := !![pose.t.x; pose.t.y; 1]
  collect R T

/-- The two call forms of `relativeBearing`, which is declared in `Rot2.h` and
is taken as a parameter: `value d` is `relativeBearing(d)` and
`withDerivative d` is the rotation returned by `relativeBearing(d, D)` together
with the 1×2 row it writes into `D`. -/
structure RelativeBearing (K : Type) where
  value : Point2 K → Rot2 K
  withDerivative : Point2 K → Rot2 K × Matrix (Fin 1) (Fin 2) K

/-- Modelled from the spec: `relativeBearing`, the rotation whose angle is the
`atan2` of the point, `(x / n, y / n)` with `n` the norm, and the derivative row
`[-y / d2, x / d2]` of that angle, `d2 = x² + y²`. -/
def relativeBearing (sqrt : K → K) : RelativeBearing K where
  value d := ⟨d.x / d.norm sqrt, d.y / d.norm sqrt⟩
  withDerivative d :=
    let x := d.x
    let y := d.y
    let d2 := x * x + y * y
    let n := sqrt d2
    (⟨x / n, y / n⟩, !![-y / d2, x / d2])

/-- `bearing(pose, point)`: the relative bearing of the point in the pose's
frame. -/
def bearing (rb : RelativeBearing K) (pose : Pose2 K) (point : Point2 K) : Rot2 K :=
  let d := (transform_to pose point false false).1
  rb.value d

/-- `bearing(pose, point, H1, H2)`: the bearing with the Jacobians the caller
asked for. -/
def bearing_H (rb : RelativeBearing K) (pose : Pose2 K) (point : Point2 K) (H1 H2 : Bool) :
    Rot2 K × Option (Matrix (Fin 1) (Fin 3) K) × Option (Matrix (Fin 1) (Fin 2) K) :=
  if !H1 && !H2 then (bearing rb pose point, none, none)
  else
    let d := (transform_to pose point false false).1
    let D_result_d := (rb.withDerivative d).2
    let result := (rb.withDerivative d).1
    (result,
     if H1 then some (D_result_d * Dtransform_to1 pose point) else none,
     if H2 then some (D_result_d * Dtransform_to2 pose point) else none)

end Defs2

/-! ## The group contract of `concepts.h` -/

/-- The group flavor tags `additive_tag` and `multiplicative_tag`. -/
inductive Flavor where
  | additive_tag
  | multiplicative_tag
deriving DecidableEq, Repr

/-- The free functions `group::compose`, `group::between`, `group::inverse` of
a type `T` with its traits `group::traits::identity<T>::value` and
`group::traits::flavor<T>::type`. -/
structure GroupFunctions (T : Type) where
  compose : T → T → T
  between : T → T → T
  inverse : T → T
  identity : T
  flavor : Flavor

/-- `group::check_invariants(a, b, tol)`, with the `equals` of `Testable<T>`
passed in. -/
def check_invariants {T Tol : Type} (G : GroupFunctions T) (equals : T → T → Tol → Bool)
    (a b : T) (tol : Tol) : Bool :=
  let e := G.identity
  equals (G.compose a (G.inverse a)) e tol
    && equals (G.between a b) (G.compose (G.inverse a) b) tol
    && equals (G.compose a (G.between a b)) b tol

/-- The members a class offers to `GTSAM_MULTIPLICATIVE_GROUP2`: `operator*`,
`.inverse()` and the static `Identity()`. -/
structure MultiplicativeOps (G : Type) where
  mul : G → G → G
  inverse : G → G
  Identity : G

/-- The group laws for `*`, `.inverse()`, `Identity()`: associativity,
two-sided identity, two-sided inverse. -/
structure MultiplicativeOps.IsGroup {G : Type} (o : MultiplicativeOps G) : Prop where
  mul_assoc : ∀ a b c, o.mul (o.mul a b) c = o.mul a (o.mul b c)
  Identity_mul : ∀ a, o.mul o.Identity a = a
  mul_Identity : ∀ a, o.mul a o.Identity = a
  inverse_mul : ∀ a, o.mul (o.inverse a) a = o.Identity
  mul_inverse : ∀ a, o.mul a (o.inverse a) = o.Identity

/-- What `GTSAM_MULTIPLICATIVE_GROUP2(T1, A1, T2, A2, GROUP)` generates for a
class `GROUP<A1, A2>`. -/
def GTSAM_MULTIPLICATIVE_GROUP2 {G : Type} (o : MultiplicativeOps G) : GroupFunctions G where
  compose g h := o.mul g h
  between g h := o.mul (o.inverse g) h
  inverse g := o.inverse g
  identity := o.Identity
  flavor := Flavor.multiplicative_tag

/-- The members a class offers to `GTSAM_ADDITIVE_GROUP1`: `operator+`, binary
`operator-`, unary `operator-` and the static `Identity()`. -/
structure AdditiveOps (G : Type) where
  add : G → G → G
  sub : G → G → G
  neg : G → G
  Identity : G

/-- The additive group laws for `+`, binary `-`, unary `-`, `Identity()`:
associativity, two-sided zero, two-sided negation, `a − b = a + (−b)`. -/
structure AdditiveOps.IsGroup {G : Type} (o : AdditiveOps G) : Prop where
  add_assoc : ∀ a b c, o.add (o.add a b) c = o.add a (o.add b c)
  Identity_add : ∀ a, o.add o.Identity a = a
  add_Identity : ∀ a, o.add a o.Identity = a
  neg_add : ∀ a, o.add (o.neg a) a = o.Identity
  add_neg : ∀ a, o.add a (o.neg a) = o.Identity
  sub_eq : ∀ a b, o.sub a b = o.add a (o.neg b)

/-- What `GTSAM_ADDITIVE_GROUP1(T1, A1, GROUP)` generates for a class
`GROUP<A1>`. -/
def GTSAM_ADDITIVE_GROUP1 {G : Type} (o : AdditiveOps G) : GroupFunctions G where
  compose g h := o.add g h
  between g h := o.sub h g
  inverse g := o.neg g
  identity := o.Identity
  flavor := Flavor.additive_tag

/-- The three axioms that `group::check_invariants` tests at `a`, `b`, as
equalities. -/
def GroupFunctions.Axioms {T : Type} (G : GroupFunctions T) (a b : T) : Prop :=
  G.compose a (G.inverse a) = G.identity ∧
  G.between a b = G.compose (G.inverse a) b ∧
  G.compose a (G.between a b) = b

/-- The operators of the permutations of three points, a group that is not
commutative. -/
def permOps : MultiplicativeOps (Equiv.Perm (Fin 3)) where
  mul a b := a * b
  inverse a := a⁻¹
  Identity := 1

/-- The permutations of three points written additively: `+` is the product,
`-a` the inverse, `a - b` is `a + (-b)`. -/
def permAddOps : AdditiveOps (Equiv.Perm (Fin 3)) where
  add a b := a * b
  sub a b := a * b⁻¹
  neg a := a⁻¹
  Identity := 1

/-- The operators of the integers. -/
def intOps : AdditiveOps ℤ where
  add a b := a + b
  sub a b := a - b
  neg a := -a
  Identity := 0

/-! ## The structure tags of `concepts.h` -/

/-- The algebraic structure tags `manifold_tag`, `group_tag`, `lie_group_tag`,
`vector_space_tag`. -/
inductive Tag where
  | manifold_tag
  | group_tag
  | lie_group_tag
  | vector_space_tag
deriving DecidableEq, Repr, Fintype

/-- The base classes each tag is declared with. -/
def Tag.bases : Tag → List Tag
  | Tag.manifold_tag => []
  | Tag.group_tag => []
  | Tag.lie_group_tag => [Tag.manifold_tag, Tag.group_tag]
  | Tag.vector_space_tag => [Tag.lie_group_tag]

/-- The declared inheritance: `d` names `b` among its base classes. -/
def Tag.Derives (d b : Tag) : Prop := b ∈ d.bases

/-- The is-a relation on tags: the reflexive-transitive closure of the declared
inheritance. -/
def Tag.IsA (d b : Tag) : Prop := Relation.ReflTransGen Tag.Derives d b

/-- Search of the base classes of `derived` for `base`, to depth `fuel`. -/
def is_base_of_fuel : ℕ → Tag → Tag → Bool
  | 0, base, derived => decide (base = derived)
  | fuel + 1, base, derived =>
    decide (base = derived) || derived.bases.any fun b => is_base_of_fuel fuel base b

/-- Modelled from the spec: `boost::is_base_of<Base, Derived>::value` on the
tags, true when `Derived` is `Base` or inherits from it, directly or not. The
inheritance chains of the four tags have at most two steps. -/
def is_base_of (base derived : Tag) : Bool := is_base_of_fuel 4 base derived

/-- The static assertion of `IsManifold` on the structure category tag. -/
def IsManifold_tag (structure_category_tag : Tag) : Bool :=
  is_base_of Tag.manifold_tag structure_category_tag

/-- The static assertion of `IsGroup` on the structure category tag. -/
def IsGroup_tag (structure_category_tag : Tag) : Bool :=
  is_base_of Tag.group_tag structure_category_tag

/-- The static assertion of `IsLieGroup` on the structure category tag. -/
def IsLieGroup_tag (structure_category_tag : Tag) : Bool :=
  is_base_of Tag.lie_group_tag structure_category_tag

/-- The static assertion of `IsVectorSpace` on the structure category tag. -/
def IsVectorSpace_tag (structure_category_tag : Tag) : Bool :=
  is_base_of Tag.vector_space_tag structure_category_tag

/-! ## Helper lemmas -/

section Lemmas

variable {K : Type} [Field K]

theorem transform_to_fst (pose : Pose2 K) (point : Point2 K) (H1 H2 : Bool) :
    (transform_to pose point H1 H2).1 = pose.r.unrotate (point.sub pose.t) := by
  cases H1 <;> cases H2 <;> rfl

theorem between_fst (p1 p2 : Pose2 K) (H1 H2 : Bool) :
    (between p1 p2 H1 H2).1 =
      ⟨⟨p1.r.c * p2.r.c + p1.r.s * p2.r.s, -p1.r.s * p2.r.c + p1.r.c * p2.r.s⟩,
       p1.r.unrotate (p2.t.sub p1.t)⟩ := by
  cases H1 <;> cases H2 <;> rfl

theorem Dtransform_to1_eq (pose : Pose2 K) (point : Point2 K) :
    Dtransform_to1 pose point =
      !![-1, 0, (pose.r.unrotate (point.sub pose.t)).y;
         0, -1, -(pose.r.unrotate (point.sub pose.t)).x] := rfl

theorem Dtransform_to2_eq (pose : Pose2 K) (point : Point2 K) :
    Dtransform_to2 pose point = !![pose.r.c, pose.r.s; -pose.r.s, pose.r.c] := rfl

theorem range_H_fst (sqrt : K → K) (pose : Pose2 K) (point : Point2 K) (H1 H2 : Bool) :
    (range_H sqrt pose point H1 H2).1 = range sqrt pose point := by
  cases H1 <;> cases H2 <;> rfl

theorem range_H_eq (sqrt : K → K) (pose : Pose2 K) (point : Point2 K)
    (H1 H2 : Bool) :
    range_H sqrt pose point H1 H2 =
      (sqrt ((pose.r.unrotate (point.sub pose.t)).x * (pose.r.unrotate (point.sub pose.t)).x
          + (pose.r.unrotate (point.sub pose.t)).y * (pose.r.unrotate (point.sub pose.t)).y),
       (if H1 then
          some (!![(pose.r.unrotate (point.sub pose.t)).x
                    / sqrt ((pose.r.unrotate (point.sub pose.t)).x
                          * (pose.r.unrotate (point.sub pose.t)).x
                        + (pose.r.unrotate (point.sub pose.t)).y
                          * (pose.r.unrotate (point.sub pose.t)).y),
                   (pose.r.unrotate (point.sub pose.t)).y
                    / sqrt ((pose.r.unrotate (point.sub pose.t)).x
                          * (pose.r.unrotate (point.sub pose.t)).x
                        + (pose.r.unrotate (point.sub pose.t)).y
                          * (pose.r.unrotate (point.sub pose.t)).y)]
                * Dtransform_to1 pose point)
        else none),
       (if H2 then
          some (!![(pose.r.unrotate (point.sub pose.t)).x
                    / sqrt ((pose.r.unrotate (point.sub pose.t)).x
                          * (pose.r.unrotate (point.sub pose.t)).x
                        + (pose.r.unrotate (point.sub pose.t)).y
                          * (pose.r.unrotate (point.sub pose.t)).y),
                   (pose.r.unrotate (point.sub pose.t)).y
                    / sqrt ((pose.r.unrotate (point.sub pose.t)).x
                          * (pose.r.unrotate (point.sub pose.t)).x
                        + (pose.r.unrotate (point.sub pose.t)).y
                          * (pose.r.unrotate (point.sub pose.t)).y)]
                * Dtransform_to2 pose point)
        else none)) := by
  cases H1 <;> cases H2 <;> rfl

end Lemmas

/-! ## Helper lemmas for the Jacobians -/

section JacobianLemmas

open ContinuousLinearMap

theorem between_rot_isUnit {K : Type} [Field K] (p1 p2 : Pose2 K) (h1 : p1.r.IsUnit)
    (h2 : p2.r.IsUnit) (H1 H2 : Bool) : (between p1 p2 H1 H2).1.r.IsUnit := by
  rw [between_fst]
  obtain ⟨⟨c1, s1⟩, ⟨x1, y1⟩⟩ := p1
  obtain ⟨⟨c2, s2⟩, ⟨x2, y2⟩⟩ := p2
  simp only [Rot2.IsUnit] at h1 h2 ⊢
  linear_combination (c2 * c2 + s2 * s2) * h1 + h2

theorem between_H1_eq {K : Type} [Field K] (p1 p2 : Pose2 K) (H2 : Bool) :
    (between p1 p2 true H2).2.1 =
      some !![-(p1.r.c * p2.r.c + p1.r.s * p2.r.s), -(-p1.r.s * p2.r.c + p1.r.c * p2.r.s),
                -p2.r.s * (p2.t.sub p1.t).x + p2.r.c * (p2.t.sub p1.t).y;
              -p1.r.s * p2.r.c + p1.r.c * p2.r.s, -(p1.r.c * p2.r.c + p1.r.s * p2.r.s),
                -p2.r.c * (p2.t.sub p1.t).x - p2.r.s * (p2.t.sub p1.t).y;
              0, 0, -1] := by
  cases H2 <;> rfl

/-- `between` of the perturbed first pose. -/
theorem between_compose_ofTangent (p1 p2 : Pose2 ℝ) (h1 : p1.r.IsUnit) (ξ : Fin 3 → ℝ) :
    (between (compose p1 (Pose2.ofTangent ξ)) p2 false false).1 =
      ⟨(Rot2.fromAngle (ξ 2)).inverse.compose (between p1 p2 false false).1.r,
       (Rot2.fromAngle (ξ 2)).unrotate ((between p1 p2 false false).1.t.sub ⟨ξ 0, ξ 1⟩)⟩ := by
  rw [between_fst, between_fst]
  obtain ⟨⟨c1, s1⟩, ⟨x1, y1⟩⟩ := p1
  obtain ⟨⟨c2, s2⟩, ⟨x2, y2⟩⟩ := p2
  simp only [Rot2.IsUnit] at h1
  simp only [compose, Rot2.compose, Rot2.inverse, Rot2.rotate, Rot2.unrotate, Point2.add,
    Point2.sub, Pose2.ofTangent, Pose2.ofThetaXY, Rot2.fromAngle, Pose2.mk.injEq,
    Rot2.mk.injEq, Point2.mk.injEq]
  refine ⟨⟨?_, ?_⟩, ?_, ?_⟩
  · ring
  · ring
  · linear_combination (-(Real.cos (ξ 2) * ξ 0 + Real.sin (ξ 2) * ξ 1)) * h1
  · linear_combination (Real.sin (ξ 2) * ξ 0 - Real.cos (ξ 2) * ξ 1) * h1

theorem localCoordinates_rotated (r : Pose2 ℝ) (hr : r.r.IsUnit) (θ : ℝ) (v : Point2 ℝ) :
    localCoordinates r ⟨(Rot2.fromAngle θ).inverse.compose r.r, v⟩ =
      ![(r.r.unrotate (v.sub r.t)).x, (r.r.unrotate (v.sub r.t)).y,
        Complex.arg ⟨Real.cos θ, -Real.sin θ⟩] := by
  obtain ⟨⟨c, s⟩, ⟨a, b⟩⟩ := r
  obtain ⟨vx, vy⟩ := v
  simp only [Rot2.IsUnit] at hr
  have hc : c * (Real.cos θ * c - -Real.sin θ * s) - -s * (-Real.sin θ * c + Real.cos θ * s)
      = Real.cos θ := by linear_combination Real.cos θ * hr
  have hs : -s * (Real.cos θ * c - -Real.sin θ * s) + c * (-Real.sin θ * c + Real.cos θ * s)
      = -Real.sin θ := by linear_combination (-Real.sin θ) * hr
  simp only [localCoordinates, compose, inverse, Rot2.compose, Rot2.inverse, Rot2.rotate,
    Rot2.unrotate, Point2.add, Point2.sub, Rot2.fromAngle, Rot2.theta, hc, hs]
  have e1 : -(c * a + s * b) + (c * vx - -s * vy) = c * (vx - a) + s * (vy - b) := by ring
  have e2 : -(-s * a + c * b) + (-s * vx + c * vy) = -s * (vx - a) + c * (vy - b) := by ring
  rw [e1, e2]

theorem arg_cos_neg_sin {θ : ℝ} (hθ : θ ∈ Set.Ioo (-Real.pi) Real.pi) :
    Complex.arg ⟨Real.cos θ, -Real.sin θ⟩ = -θ := by
  have h : (⟨Real.cos θ, -Real.sin θ⟩ : ℂ)
      = Complex.cos ((-θ : ℝ) : ℂ) + Complex.sin ((-θ : ℝ) : ℂ) * Complex.I := by
    apply Complex.ext <;> simp [Complex.cos_ofReal_re, Complex.sin_ofReal_re,
      ← Complex.ofReal_cos, ← Complex.ofReal_sin, ← Complex.ofReal_neg]
  rw [h]
  exact Complex.arg_cos_add_sin_mul_I ⟨by linarith [hθ.2], by linarith [hθ.1]⟩

theorem hasFDerivAt_relX (a b c s : ℝ) :
    HasFDerivAt (fun ξ : Fin 3 → ℝ =>
        c * (Real.cos (ξ 2) * (a - ξ 0) + Real.sin (ξ 2) * (b - ξ 1) - a)
          + s * (-Real.sin (ξ 2) * (a - ξ 0) + Real.cos (ξ 2) * (b - ξ 1) - b))
      ((-c) • (proj 0 : (Fin 3 → ℝ) →L[ℝ] ℝ) + (-s) • (proj 1 : (Fin 3 → ℝ) →L[ℝ] ℝ)
        + (c * b - s * a) • (proj 2 : (Fin 3 → ℝ) →L[ℝ] ℝ)) 0 := by
  have h0 : HasFDerivAt (fun ξ : Fin 3 → ℝ => ξ 0) (proj 0 : (Fin 3 → ℝ) →L[ℝ] ℝ) 0 :=
    hasFDerivAt_apply (0 : Fin 3) (0 : Fin 3 → ℝ)
  have h1 : HasFDerivAt (fun ξ : Fin 3 → ℝ => ξ 1) (proj 1 : (Fin 3 → ℝ) →L[ℝ] ℝ) 0 :=
    hasFDerivAt_apply (1 : Fin 3) (0 : Fin 3 → ℝ)
  have h2 : HasFDerivAt (fun ξ : Fin 3 → ℝ => ξ 2) (proj 2 : (Fin 3 → ℝ) →L[ℝ] ℝ) 0 :=
    hasFDerivAt_apply (2 : Fin 3) (0 : Fin 3 → ℝ)
  have ha := (hasFDerivAt_const a (0 : Fin 3 → ℝ)).sub h0
  have hb := (hasFDerivAt_const b (0 : Fin 3 → ℝ)).sub h1
  have kx := (((h2.cos.mul ha).add (h2.sin.mul hb)).sub
    (hasFDerivAt_const a (0 : Fin 3 → ℝ))).const_mul c
  have ky := (((h2.sin.neg.mul ha).add (h2.cos.mul hb)).sub
    (hasFDerivAt_const b (0 : Fin 3 → ℝ))).const_mul s
  refine (kx.add ky).congr_fderiv ?_
  ext v
  simp
  ring

theorem hasFDerivAt_relTheta :
    HasFDerivAt (fun ξ : Fin 3 → ℝ =>
        Complex.arg ⟨Real.cos (ξ 2), -Real.sin (ξ 2)⟩)
      (-(proj 2 : (Fin 3 → ℝ) →L[ℝ] ℝ)) 0 := by
  have h2 : HasFDerivAt (fun ξ : Fin 3 → ℝ => ξ 2) (proj 2 : (Fin 3 → ℝ) →L[ℝ] ℝ) 0 :=
    hasFDerivAt_apply (2 : Fin 3) (0 : Fin 3 → ℝ)
  refine h2.neg.congr_of_eventuallyEq ?_
  have hmem : ∀ᶠ ξ : Fin 3 → ℝ in nhds 0, ξ 2 ∈ Set.Ioo (-Real.pi) Real.pi := by
    have hc : ContinuousAt (fun ξ : Fin 3 → ℝ => ξ 2) 0 := (continuous_apply 2).continuousAt
    exact hc.preimage_mem_nhds
      (Ioo_mem_nhds (by simp [Real.pi_pos]) (by simp [Real.pi_pos]))
  filter_upwards [hmem] with ξ hξ
  exact arg_cos_neg_sin hξ

theorem betweenPerturbed1_eq (p1 p2 : Pose2 ℝ) (h1 : p1.r.IsUnit) (h2 : p2.r.IsUnit)
    (ξ : Fin 3 → ℝ) :
    betweenPerturbed1 p1 p2 ξ =
      ![(between p1 p2 false false).1.r.c
            * (Real.cos (ξ 2) * ((between p1 p2 false false).1.t.x - ξ 0)
                + Real.sin (ξ 2) * ((between p1 p2 false false).1.t.y - ξ 1)
                - (between p1 p2 false false).1.t.x)
          + (between p1 p2 false false).1.r.s
            * (-Real.sin (ξ 2) * ((between p1 p2 false false).1.t.x - ξ 0)
                + Real.cos (ξ 2) * ((between p1 p2 false false).1.t.y - ξ 1)
                - (between p1 p2 false false).1.t.y),
        -(between p1 p2 false false).1.r.s
            * (Real.cos (ξ 2) * ((between p1 p2 false false).1.t.x - ξ 0)
                + Real.sin (ξ 2) * ((between p1 p2 false false).1.t.y - ξ 1)
                - (between p1 p2 false false).1.t.x)
          + (between p1 p2 false false).1.r.c
            * (-Real.sin (ξ 2) * ((between p1 p2 false false).1.t.x - ξ 0)
                + Real.cos (ξ 2) * ((between p1 p2 false false).1.t.y - ξ 1)
                - (between p1 p2 false false).1.t.y),
        Complex.arg ⟨Real.cos (ξ 2), -Real.sin (ξ 2)⟩] := by
  unfold betweenPerturbed1
  rw [between_compose_ofTangent p1 p2 h1 ξ,
    localCoordinates_rotated _ (between_rot_isUnit p1 p2 h1 h2 false false)]
  rfl

theorem hasDerivAt_cos_sin_comb (A B : ℝ) :
    HasDerivAt (fun θ : ℝ => A * Real.cos θ + B * Real.sin θ) B 0 := by
  have h := ((Real.hasDerivAt_cos 0).const_mul A).add ((Real.hasDerivAt_sin 0).const_mul B)
  simpa using h

theorem hasDerivAt_affine (A B : ℝ) : HasDerivAt (fun x : ℝ => A + B * x) B 0 := by
  have h := ((hasDerivAt_id (0 : ℝ)).const_mul B).const_add A
  simpa using h

theorem perturbedLocalPoint_rot (pose : Pose2 ℝ) (point : Point2 ℝ) (θ : ℝ) :
    perturbedLocalPoint pose point θ 0 0 =
      ⟨(pose.r.unrotate (point.sub pose.t)).x * Real.cos θ
          + (pose.r.unrotate (point.sub pose.t)).y * Real.sin θ,
       (pose.r.unrotate (point.sub pose.t)).y * Real.cos θ
          + (-(pose.r.unrotate (point.sub pose.t)).x) * Real.sin θ⟩ := by
  obtain ⟨⟨c, s⟩, ⟨tx, ty⟩⟩ := pose
  obtain ⟨px, py⟩ := point
  simp only [perturbedLocalPoint, transform_to_fst, compose, Rot2.compose, Rot2.rotate,
    Rot2.unrotate, Point2.add, Point2.sub, Pose2.ofThetaXY, Rot2.fromAngle, Point2.mk.injEq]
  constructor <;> ring

theorem perturbedLocalPoint_tx (pose : Pose2 ℝ) (point : Point2 ℝ) (h : pose.r.IsUnit)
    (x : ℝ) :
    perturbedLocalPoint pose point 0 x 0 =
      ⟨(pose.r.unrotate (point.sub pose.t)).x + (-1) * x,
       (pose.r.unrotate (point.sub pose.t)).y + 0 * x⟩ := by
  obtain ⟨⟨c, s⟩, ⟨tx, ty⟩⟩ := pose
  obtain ⟨px, py⟩ := point
  simp only [Rot2.IsUnit] at h
  simp only [perturbedLocalPoint, transform_to_fst, compose, Rot2.compose, Rot2.rotate,
    Rot2.unrotate, Point2.add, Point2.sub, Pose2.ofThetaXY, Rot2.fromAngle, Point2.mk.injEq,
    Real.cos_zero, Real.sin_zero]
  constructor
  · linear_combination (-x) * h
  · ring

theorem perturbedLocalPoint_ty (pose : Pose2 ℝ) (point : Point2 ℝ) (h : pose.r.IsUnit)
    (y : ℝ) :
    perturbedLocalPoint pose point 0 0 y =
      ⟨(pose.r.unrotate (point.sub pose.t)).x + 0 * y,
       (pose.r.unrotate (point.sub pose.t)).y + (-1) * y⟩ := by
  obtain ⟨⟨c, s⟩, ⟨tx, ty⟩⟩ := pose
  obtain ⟨px, py⟩ := point
  simp only [Rot2.IsUnit] at h
  simp only [perturbedLocalPoint, transform_to_fst, compose, Rot2.compose, Rot2.rotate,
    Rot2.unrotate, Point2.add, Point2.sub, Pose2.ofThetaXY, Rot2.fromAngle, Point2.mk.injEq,
    Real.cos_zero, Real.sin_zero]
  constructor
  · ring
  · linear_combination (-y) * h

theorem isRotationColumn_two (pose : Pose2 ℝ) (point : Point2 ℝ) :
    IsRotationColumn pose point (Dtransform_to1 pose point) 2 := by
  unfold IsRotationColumn
  simp only [perturbedLocalPoint_rot, Dtransform_to1_eq]
  exact ⟨hasDerivAt_cos_sin_comb _ _, hasDerivAt_cos_sin_comb _ _⟩

theorem isTranslationXColumn_zero (pose : Pose2 ℝ) (point : Point2 ℝ) (h : pose.r.IsUnit) :
    IsTranslationXColumn pose point (Dtransform_to1 pose point) 0 := by
  unfold IsTranslationXColumn
  simp only [perturbedLocalPoint_tx pose point h, Dtransform_to1_eq]
  exact ⟨hasDerivAt_affine _ _, hasDerivAt_affine _ _⟩

theorem isTranslationYColumn_one (pose : Pose2 ℝ) (point : Point2 ℝ) (h : pose.r.IsUnit) :
    IsTranslationYColumn pose point (Dtransform_to1 pose point) 1 := by
  unfold IsTranslationYColumn
  simp only [perturbedLocalPoint_ty pose point h, Dtransform_to1_eq]
  exact ⟨hasDerivAt_affine _ _, hasDerivAt_affine _ _⟩

end JacobianLemmas

/-! ## Round trip and group identities of `between` -/

section Algebra

variable {K : Type} [Field K]

/-- C1: for poses `p1`, `p2` with unit-norm rotations, composing `p1` with
`between(p1, p2)` gives exactly `p2`, whichever Jacobians are requested. -/
theorem compose_between_eq (p1 p2 : Pose2 K) (h1 : p1.r.IsUnit) (h2 : p2.r.IsUnit)
    (H1 H2 : Bool) : compose p1 (between p1 p2 H1 H2).1 = p2 := by
  rw [between_fst]
  obtain ⟨⟨c1, s1⟩, ⟨x1, y1⟩⟩ := p1
  obtain ⟨⟨c2, s2⟩, ⟨x2, y2⟩⟩ := p2
  simp only [Rot2.IsUnit] at h1 h2
  simp only [compose, Rot2.compose, Rot2.rotate, Rot2.unrotate, Point2.add, Point2.sub,
    Pose2.mk.injEq, Rot2.mk.injEq, Point2.mk.injEq]
  refine ⟨⟨?_, ?_⟩, ?_, ?_⟩
  · linear_combination c2 * h1
  · linear_combination s2 * h1
  · linear_combination (x2 - x1) * h1
  · linear_combination (y2 - y1) * h1

/-- Witness for C1 on the poses `((0, 1), (1, 2))` and `((3/5, 4/5), (3, 4))`
over the rationals. -/
theorem compose_between_eq_witness :
    (⟨0, 1⟩ : Rot2 ℚ).IsUnit ∧ (⟨3 / 5, 4 / 5⟩ : Rot2 ℚ).IsUnit ∧
      compose (⟨⟨0, 1⟩, ⟨1, 2⟩⟩ : Pose2 ℚ)
        (between ⟨⟨0, 1⟩, ⟨1, 2⟩⟩ ⟨⟨3 / 5, 4 / 5⟩, ⟨3, 4⟩⟩ true true).1
        = ⟨⟨3 / 5, 4 / 5⟩, ⟨3, 4⟩⟩ :=
  ⟨by norm_num [Rot2.IsUnit], by norm_num [Rot2.IsUnit],
   compose_between_eq _ _ (by norm_num [Rot2.IsUnit]) (by norm_num [Rot2.IsUnit]) true true⟩

/-- C7: for all poses `a`, `b` the pose computed by `between(a, b)` equals
`compose(inverse(a), b)`; its rotation is `(c1c2 + s1s2, −s1c2 + c1s2)` and its
translation is `Raᵀ(tb − ta)`. -/
theorem between_eq_compose_inverse (a b : Pose2 K) (H1 H2 : Bool) :
    (between a b H1 H2).1 = compose (inverse a) b ∧
    (between a b H1 H2).1.r =
      ⟨a.r.c * b.r.c + a.r.s * b.r.s, -a.r.s * b.r.c + a.r.c * b.r.s⟩ ∧
    (between a b H1 H2).1.t = a.r.unrotate (b.t.sub a.t) := by
  rw [between_fst]
  refine ⟨?_, rfl, rfl⟩
  obtain ⟨⟨c1, s1⟩, ⟨x1, y1⟩⟩ := a
  obtain ⟨⟨c2, s2⟩, ⟨x2, y2⟩⟩ := b
  simp only [compose, inverse, Rot2.compose, Rot2.inverse, Rot2.rotate, Rot2.unrotate,
    Point2.add, Point2.sub, Pose2.mk.injEq, Rot2.mk.injEq, Point2.mk.injEq]
  refine ⟨⟨?_, ?_⟩, ?_, ?_⟩ <;> ring_nf

end Algebra

/-! ## `transform_to` -/

section TransformTo

variable {K : Type} [Field K]

/-- C4: `transform_to(pose, p)` returns `q = Rᵀ(p − t)`, that is
`(c·dx + s·dy, −s·dx + c·dy)` with `(dx, dy) = p − t`, whichever Jacobians are
requested; the pose `(θ = π/2, 0, 0)` and the point `(1, 0)` give `(0, −1)`. -/
theorem transform_to_value :
    (∀ (pose : Pose2 ℝ) (p : Point2 ℝ) (H1 H2 : Bool),
      (transform_to pose p H1 H2).1 =
        ⟨pose.r.c * (p.x - pose.t.x) + pose.r.s * (p.y - pose.t.y),
         -pose.r.s * (p.x - pose.t.x) + pose.r.c * (p.y - pose.t.y)⟩) ∧
    (∀ H1 H2 : Bool,
      (transform_to (Pose2.ofThetaXY (Real.pi / 2) 0 0) ⟨1, 0⟩ H1 H2).1 = ⟨0, -1⟩) := by
  refine ⟨fun pose p H1 H2 => ?_, fun H1 H2 => ?_⟩
  · rw [transform_to_fst]; rfl
  · rw [transform_to_fst]
    simp [Pose2.ofThetaXY, Rot2.fromAngle, Rot2.unrotate, Point2.sub]

/-- C5: for a pose with unit-norm rotation `R` and translation `t`, applying
the pose to the result of `transform_to` recovers the point:
`R·transform_to(pose, p) + t = p`. -/
theorem rotate_transform_to_add (pose : Pose2 K) (p : Point2 K) (h : pose.r.IsUnit)
    (H1 H2 : Bool) :
    (pose.r.rotate (transform_to pose p H1 H2).1).add pose.t = p := by
  rw [transform_to_fst]
  obtain ⟨⟨c, s⟩, ⟨tx, ty⟩⟩ := pose
  obtain ⟨px, py⟩ := p
  simp only [Rot2.IsUnit] at h
  simp only [Rot2.rotate, Rot2.unrotate, Point2.add, Point2.sub, Point2.mk.injEq]
  refine ⟨?_, ?_⟩
  · linear_combination (px - tx) * h
  · linear_combination (py - ty) * h

/-- Witness for C5 on the pose `((3/5, 4/5), (1, 2))` and the point `(7, −3)`
over the rationals. -/
theorem rotate_transform_to_add_witness :
    (⟨3 / 5, 4 / 5⟩ : Rot2 ℚ).IsUnit ∧
      ((⟨3 / 5, 4 / 5⟩ : Rot2 ℚ).rotate
        (transform_to ⟨⟨3 / 5, 4 / 5⟩, ⟨1, 2⟩⟩ ⟨7, -3⟩ true false).1).add ⟨1, 2⟩ = ⟨7, -3⟩ :=
  ⟨by norm_num [Rot2.IsUnit],
   rotate_transform_to_add ⟨⟨3 / 5, 4 / 5⟩, ⟨1, 2⟩⟩ ⟨7, -3⟩ (by norm_num [Rot2.IsUnit])
     true false⟩

/-- C6: whenever `H1` is requested from `transform_to` it is the 2×3 matrix
`[[-1, 0, q.y], [0, -1, -q.x]]` built from the returned point `q`, and whenever
`H2` is requested it is the transpose `[[c, s], [−s, c]]` of the pose's rotation
matrix; `Dtransform_to1` and `Dtransform_to2` return these two matrices. -/
theorem transform_to_jacobians (pose : Pose2 K) (point : Point2 K) :
    (∀ H2 : Bool, (transform_to pose point true H2).2.1 =
      some !![-1, 0, (transform_to pose point true H2).1.y;
              0, -1, -(transform_to pose point true H2).1.x]) ∧
    (∀ H1 : Bool, (transform_to pose point H1 true).2.2 =
      some !![pose.r.c, pose.r.s; -pose.r.s, pose.r.c]) ∧
    !![pose.r.c, pose.r.s; -pose.r.s, pose.r.c] = (pose.r.matrix).transpose ∧
    Dtransform_to1 pose point =
      !![-1, 0, (transform_to pose point false false).1.y;
         0, -1, -(transform_to pose point false false).1.x] ∧
    Dtransform_to2 pose point = !![pose.r.c, pose.r.s; -pose.r.s, pose.r.c] := by
  refine ⟨fun H2 => ?_, fun H1 => ?_, ?_, rfl, rfl⟩
  · cases H2 <;> rfl
  · cases H1 <;> rfl
  · ext i j
    fin_cases i <;> fin_cases j <;> rfl

end TransformTo

/-! ## The second Jacobian of `between` -/

/-- C8: whenever `H2` is requested from `between` it is the 3×3 identity
matrix, for all `p1`, `p2` and whether or not `H1` is requested; for
`p1 = (θ = 0, 0, 0)` and `p2 = (θ = 0, 1, 0)` the result is the pose
`(θ = 0, 1, 0)` with `H2 = I`. -/
theorem between_H2_identity :
    (∀ (p1 p2 : Pose2 ℝ) (H1 : Bool), (between p1 p2 H1 true).2.2 = some 1) ∧
    (∀ H1 : Bool,
      (between (Pose2.ofThetaXY 0 0 0) (Pose2.ofThetaXY 0 1 0) H1 true).1
          = Pose2.ofThetaXY 0 1 0 ∧
      (between (Pose2.ofThetaXY 0 0 0) (Pose2.ofThetaXY 0 1 0) H1 true).2.2 = some 1) := by
  refine ⟨fun p1 p2 H1 => ?_, fun H1 => ⟨?_, ?_⟩⟩
  · cases H1 <;> rfl
  · rw [between_fst]
    simp [Pose2.ofThetaXY, Rot2.fromAngle, Rot2.unrotate, Point2.sub]
  · cases H1 <;> rfl

/-! ## `range` -/

/-- C9: for a pose with unit-norm rotation and translation `t` and a point
`p`, `range(pose, p)` is the Euclidean distance
`sqrt((p.x − t.x)² + (p.y − t.y)²)`, in the value-only overload and in the
overload with Jacobians; for the pose `(θ = 0, 0, 0)` and the point `(1, 0)`
it is `1`. -/
theorem range_eq_distance :
    (∀ (pose : Pose2 ℝ) (p : Point2 ℝ), pose.r.IsUnit → ∀ H1 H2 : Bool,
      range Real.sqrt pose p = Real.sqrt ((p.x - pose.t.x) ^ 2 + (p.y - pose.t.y) ^ 2) ∧
      (range_H Real.sqrt pose p H1 H2).1 =
        Real.sqrt ((p.x - pose.t.x) ^ 2 + (p.y - pose.t.y) ^ 2)) ∧
    (∀ H1 H2 : Bool,
      range Real.sqrt (Pose2.ofThetaXY 0 0 0) ⟨1, 0⟩ = 1 ∧
      (range_H Real.sqrt (Pose2.ofThetaXY 0 0 0) ⟨1, 0⟩ H1 H2).1 = 1) := by
  have key : ∀ (pose : Pose2 ℝ) (p : Point2 ℝ) (H1 H2 : Bool),
      (range_H Real.sqrt pose p H1 H2).1 = range Real.sqrt pose p :=
    range_H_fst Real.sqrt
  refine ⟨fun pose p h H1 H2 => ?_, fun H1 H2 => ?_⟩
  · have hr : range Real.sqrt pose p
        = Real.sqrt ((p.x - pose.t.x) ^ 2 + (p.y - pose.t.y) ^ 2) := by
      obtain ⟨⟨c, s⟩, ⟨tx, ty⟩⟩ := pose
      obtain ⟨px, py⟩ := p
      simp only [Rot2.IsUnit] at h
      simp only [range, transform_to_fst, Point2.norm, Rot2.unrotate, Point2.sub]
      congr 1
      linear_combination ((px - tx) ^ 2 + (py - ty) ^ 2) * h
    exact ⟨hr, (key pose p H1 H2).trans hr⟩
  · have hr : range Real.sqrt (Pose2.ofThetaXY 0 0 0) ⟨1, 0⟩ = 1 := by
      simp [range, transform_to_fst, Point2.norm, Rot2.unrotate, Point2.sub,
        Pose2.ofThetaXY, Rot2.fromAngle]
    exact ⟨hr, (key _ _ H1 H2).trans hr⟩

/-- Witness for C9 on the pose `((3/5, 4/5), (1, 2))` and the point `(4, 6)`. -/
theorem range_eq_distance_witness :
    (⟨3 / 5, 4 / 5⟩ : Rot2 ℝ).IsUnit ∧
      range Real.sqrt (⟨⟨3 / 5, 4 / 5⟩, ⟨1, 2⟩⟩ : Pose2 ℝ) ⟨4, 6⟩
        = Real.sqrt ((4 - 1) ^ 2 + (6 - 2) ^ 2) :=
  ⟨by norm_num [Rot2.IsUnit],
   (range_eq_distance.1 ⟨⟨3 / 5, 4 / 5⟩, ⟨1, 2⟩⟩ ⟨4, 6⟩ (by norm_num [Rot2.IsUnit])
     true true).1⟩

/-- C10, as the code behaves at a concrete input: for the pose `(θ = 0, 0, 0)`
and the point `(0, 0)` the local-frame vector has norm zero, and `range` with
both Jacobians requested returns the distance `0` together with the two
Jacobians built from the row `[0 / 0, 0 / 0]`; nothing signals a failure. -/
theorem range_H_zero_norm_returns :
    (transform_to (Pose2.ofThetaXY 0 0 0) ⟨0, 0⟩ false false).1.norm Real.sqrt = 0 ∧
    range_H Real.sqrt (Pose2.ofThetaXY 0 0 0) ⟨0, 0⟩ true true =
      ((0 : ℝ),
       some ((!![(0 : ℝ) / 0, (0 : ℝ) / 0] : Matrix (Fin 1) (Fin 2) ℝ)
              * (!![-1, 0, 0; 0, -1, -0] : Matrix (Fin 2) (Fin 3) ℝ)),
       some ((!![(0 : ℝ) / 0, (0 : ℝ) / 0] : Matrix (Fin 1) (Fin 2) ℝ)
              * (!![1, 0; -0, 1] : Matrix (Fin 2) (Fin 2) ℝ))) := by
  have hq : (Pose2.ofThetaXY 0 0 0).r.unrotate ((⟨0, 0⟩ : Point2 ℝ).sub (Pose2.ofThetaXY 0 0 0).t)
      = ⟨0, 0⟩ := by
    simp [Rot2.unrotate, Point2.sub, Pose2.ofThetaXY, Rot2.fromAngle]
  have hs : Real.sqrt ((0 : ℝ) * 0 + 0 * 0) = 0 := by simp
  have hc : (Pose2.ofThetaXY 0 0 0).r.c = 1 := by simp [Pose2.ofThetaXY, Rot2.fromAngle]
  have hsn : (Pose2.ofThetaXY 0 0 0).r.s = 0 := by simp [Pose2.ofThetaXY, Rot2.fromAngle]
  refine ⟨?_, ?_⟩
  · rw [transform_to_fst, hq]
    exact hs
  · rw [range_H_eq Real.sqrt _ _ true true, Dtransform_to1_eq, Dtransform_to2_eq,
      hq, hc, hsn, hs]
    rfl

/-- C10, amended: when the local-frame vector `q = (x, y)` has norm zero and a
Jacobian is requested, `range` returns normally: the distance is `0`, and each
requested Jacobian is the row `[x / 0, y / 0]` times the matching Jacobian of
`transform_to`; an unrequested one is left alone. -/
theorem range_H_zero_norm (pose : Pose2 ℝ) (point : Point2 ℝ) (H1 H2 : Bool)
    (_hreq : (H1 || H2) = true)
    (hzero : (transform_to pose point false false).1.norm Real.sqrt = 0) :
    range_H Real.sqrt pose point H1 H2 =
      ((0 : ℝ),
       (if H1 then
          some ((!![(transform_to pose point false false).1.x / 0,
                    (transform_to pose point false false).1.y / 0] :
                  Matrix (Fin 1) (Fin 2) ℝ)
                * Dtransform_to1 pose point)
        else none),
       (if H2 then
          some ((!![(transform_to pose point false false).1.x / 0,
                    (transform_to pose point false false).1.y / 0] :
                  Matrix (Fin 1) (Fin 2) ℝ)
                * Dtransform_to2 pose point)
        else none)) := by
  rw [transform_to_fst] at hzero ⊢
  have hn : Real.sqrt ((pose.r.unrotate (point.sub pose.t)).x
        * (pose.r.unrotate (point.sub pose.t)).x
      + (pose.r.unrotate (point.sub pose.t)).y
        * (pose.r.unrotate (point.sub pose.t)).y) = 0 := hzero
  rw [range_H_eq Real.sqrt pose point H1 H2, hn]

/-- Witness for the amended C10 on the pose `((1, 0), (2, 3))` and the point
`(2, 3)`, with the first Jacobian requested. -/
theorem range_H_zero_norm_witness :
    (true || false) = true ∧
    (transform_to (⟨⟨1, 0⟩, ⟨2, 3⟩⟩ : Pose2 ℝ) ⟨2, 3⟩ false false).1.norm Real.sqrt = 0 ∧
    (range_H Real.sqrt (⟨⟨1, 0⟩, ⟨2, 3⟩⟩ : Pose2 ℝ) ⟨2, 3⟩ true false).1 = 0 ∧
    (range_H Real.sqrt (⟨⟨1, 0⟩, ⟨2, 3⟩⟩ : Pose2 ℝ) ⟨2, 3⟩ true false).2.1.isSome = true :=
  have hz : (transform_to (⟨⟨1, 0⟩, ⟨2, 3⟩⟩ : Pose2 ℝ) ⟨2, 3⟩ false false).1.norm Real.sqrt
      = 0 := by
    simp [transform_to_fst, Point2.norm, Rot2.unrotate, Point2.sub]
  ⟨rfl, hz,
   by rw [range_H_zero_norm ⟨⟨1, 0⟩, ⟨2, 3⟩⟩ ⟨2, 3⟩ true false rfl hz],
   by rw [range_H_zero_norm ⟨⟨1, 0⟩, ⟨2, 3⟩⟩ ⟨2, 3⟩ true false rfl hz]; rfl⟩

/-! ## The first Jacobian of `between` -/

/-- C2: for poses `p1`, `p2` with unit-norm rotations, the matrix `H1` that
`between(p1, p2)` returns is the Jacobian (Fréchet derivative) at `ξ = 0` of
the map `ξ ↦` local coordinates of `between(compose(p1, Pose2(ξ)), p2)` about
`between(p1, p2)`, with `ξ = (δx, δy, δθ)` and the local coordinates of `r'`
about `r` the `(x, y, θ)` of `compose(inverse(r), r')`. -/
theorem between_H1_jacobian (p1 p2 : Pose2 ℝ) (h1 : p1.r.IsUnit) (h2 : p2.r.IsUnit) :
    ∃ H : Matrix (Fin 3) (Fin 3) ℝ,
      (∀ H2 : Bool, (between p1 p2 true H2).2.1 = some H) ∧
      HasFDerivAt (betweenPerturbed1 p1 p2)
        (LinearMap.toContinuousLinearMap (Matrix.toLin' H)) 0 := by
  refine ⟨_, fun H2 => between_H1_eq p1 p2 H2, ?_⟩
  have hfun : betweenPerturbed1 p1 p2 = fun ξ => _ :=
    funext fun ξ => betweenPerturbed1_eq p1 p2 h1 h2 ξ
  rw [hfun]
  apply hasFDerivAt_pi''
  intro i
  obtain ⟨⟨c1, s1⟩, ⟨x1, y1⟩⟩ := p1
  obtain ⟨⟨c2, s2⟩, ⟨x2, y2⟩⟩ := p2
  simp only [Rot2.IsUnit] at h1 h2
  fin_cases i
  · simp only [Fin.zero_eta, Matrix.cons_val_zero]
    refine (hasFDerivAt_relX _ _ _ _).congr_fderiv ?_
    ext v
    simp [between_fst, Rot2.unrotate, Point2.sub, Matrix.mulVec, Matrix.dotProduct,
      Fin.sum_univ_three]
    left
    linear_combination (-s2 * (x2 - x1) + c2 * (y2 - y1)) * h1
  · simp only [Fin.mk_one, Matrix.cons_val_one, Matrix.head_cons]
    refine (hasFDerivAt_relX _ _ _ _).congr_fderiv ?_
    ext v
    simp [between_fst, Rot2.unrotate, Point2.sub, Matrix.mulVec, Matrix.dotProduct,
      Fin.sum_univ_three]
    left
    linear_combination (-c2 * (x2 - x1) - s2 * (y2 - y1)) * h1
  · simp only [Fin.reduceFinMk, Matrix.cons_val_two, Matrix.tail_cons, Matrix.head_cons]
    refine hasFDerivAt_relTheta.congr_fderiv ?_
    ext v
    simp [Matrix.mulVec, Matrix.dotProduct, Fin.sum_univ_three]

/-- Witness for C2 on `p1 = ((0, 1), (0, 0))`, the pose of angle `π/2` at the
origin, and `p2 = ((1, 0), (0, 0))`, the identity. -/
theorem between_H1_jacobian_witness :
    (⟨0, 1⟩ : Rot2 ℝ).IsUnit ∧ (⟨1, 0⟩ : Rot2 ℝ).IsUnit ∧
    ∃ H : Matrix (Fin 3) (Fin 3) ℝ,
      (∀ H2 : Bool,
        (between (⟨⟨0, 1⟩, ⟨0, 0⟩⟩ : Pose2 ℝ) ⟨⟨1, 0⟩, ⟨0, 0⟩⟩ true H2).2.1 = some H) ∧
      HasFDerivAt (betweenPerturbed1 ⟨⟨0, 1⟩, ⟨0, 0⟩⟩ ⟨⟨1, 0⟩, ⟨0, 0⟩⟩)
        (LinearMap.toContinuousLinearMap (Matrix.toLin' H)) 0 :=
  ⟨by norm_num [Rot2.IsUnit], by norm_num [Rot2.IsUnit],
   between_H1_jacobian ⟨⟨0, 1⟩, ⟨0, 0⟩⟩ ⟨⟨1, 0⟩, ⟨0, 0⟩⟩ (by norm_num [Rot2.IsUnit])
     (by norm_num [Rot2.IsUnit])⟩

/-! ## The column order of the first Jacobian of `transform_to` -/

/-- C3, as stated, fails: for the identity pose `((1, 0), (0, 0))` and the
point `(1, 0)` the columns of `H1` are not in the order (δrotation, δtx, δty);
column 1 of `H1` is `(−1, 0)` while the derivative of the local point with
respect to the rotation angle is `(0, −1)`. -/
theorem transform_to_H1_not_rotation_first :
    (⟨1, 0⟩ : Rot2 ℝ).IsUnit ∧
    ¬ (IsRotationColumn ⟨⟨1, 0⟩, ⟨0, 0⟩⟩ ⟨1, 0⟩
          (Dtransform_to1 (⟨⟨1, 0⟩, ⟨0, 0⟩⟩ : Pose2 ℝ) ⟨1, 0⟩) 0 ∧
       IsTranslationXColumn ⟨⟨1, 0⟩, ⟨0, 0⟩⟩ ⟨1, 0⟩
          (Dtransform_to1 (⟨⟨1, 0⟩, ⟨0, 0⟩⟩ : Pose2 ℝ) ⟨1, 0⟩) 1 ∧
       IsTranslationYColumn ⟨⟨1, 0⟩, ⟨0, 0⟩⟩ ⟨1, 0⟩
          (Dtransform_to1 (⟨⟨1, 0⟩, ⟨0, 0⟩⟩ : Pose2 ℝ) ⟨1, 0⟩) 2) := by
  refine ⟨by norm_num [Rot2.IsUnit], fun hc => ?_⟩
  have hrot := hc.1.1
  have hgood := (isRotationColumn_two (⟨⟨1, 0⟩, ⟨0, 0⟩⟩ : Pose2 ℝ) ⟨1, 0⟩).1
  have hne := hrot.unique hgood
  simp [Dtransform_to1_eq, Rot2.unrotate, Point2.sub] at hne

/-- C3, amended: for a pose with unit-norm rotation and any point, the columns
of the `H1` returned by `transform_to` are ordered (δtx, δty, δrotation):
columns 1 and 2 are the derivatives of the local point `q` with respect to the
pose's translation perturbation and column 3 is the derivative of `q` with
respect to a perturbation of the pose's rotation angle, the perturbation being
applied in the pose's own frame. -/
theorem transform_to_H1_columns (pose : Pose2 ℝ) (point : Point2 ℝ) (h : pose.r.IsUnit) :
    (∀ H2 : Bool, (transform_to pose point true H2).2.1 = some (Dtransform_to1 pose point)) ∧
    IsTranslationXColumn pose point (Dtransform_to1 pose point) 0 ∧
    IsTranslationYColumn pose point (Dtransform_to1 pose point) 1 ∧
    IsRotationColumn pose point (Dtransform_to1 pose point) 2 := by
  refine ⟨fun H2 => ?_, isTranslationXColumn_zero pose point h,
    isTranslationYColumn_one pose point h, isRotationColumn_two pose point⟩
  cases H2 <;> rfl

/-- Witness for the amended C3 on the pose `((3/5, 4/5), (1, 2))` and the point
`(7, −3)`. -/
theorem transform_to_H1_columns_witness :
    (⟨3 / 5, 4 / 5⟩ : Rot2 ℝ).IsUnit ∧
    IsTranslationXColumn ⟨⟨3 / 5, 4 / 5⟩, ⟨1, 2⟩⟩ ⟨7, -3⟩
      (Dtransform_to1 (⟨⟨3 / 5, 4 / 5⟩, ⟨1, 2⟩⟩ : Pose2 ℝ) ⟨7, -3⟩) 0 ∧
    IsTranslationYColumn ⟨⟨3 / 5, 4 / 5⟩, ⟨1, 2⟩⟩ ⟨7, -3⟩
      (Dtransform_to1 (⟨⟨3 / 5, 4 / 5⟩, ⟨1, 2⟩⟩ : Pose2 ℝ) ⟨7, -3⟩) 1 ∧
    IsRotationColumn ⟨⟨3 / 5, 4 / 5⟩, ⟨1, 2⟩⟩ ⟨7, -3⟩
      (Dtransform_to1 (⟨⟨3 / 5, 4 / 5⟩, ⟨1, 2⟩⟩ : Pose2 ℝ) ⟨7, -3⟩) 2 :=
  ⟨by norm_num [Rot2.IsUnit],
   (transform_to_H1_columns ⟨⟨3 / 5, 4 / 5⟩, ⟨1, 2⟩⟩ ⟨7, -3⟩
     (by norm_num [Rot2.IsUnit])).2⟩

/-! ## Results that do not depend on the requested Jacobians -/

theorem bearing_H_fst {K : Type} [Field K] (rb : RelativeBearing K) (pose : Pose2 K)
    (point : Point2 K) (H1 H2 : Bool)
    (h : (rb.withDerivative (transform_to pose point false false).1).1
      = rb.value (transform_to pose point false false).1) :
    (bearing_H rb pose point H1 H2).1 = bearing rb pose point := by
  cases H1 <;> cases H2 <;> first | rfl | exact h

/-- C11: for every choice of requested Jacobians, `transform_to`, `between`,
`range` and `bearing` return the primary result of the call that requests
none; the Jacobian overload of `range` returns `sqrt(x² + y²)` and the
value-only overload the norm of the local-frame vector, which agree. For
`bearing` the two call forms of `relativeBearing` are assumed to return the
same rotation, as they do for `relativeBearing` as the spec describes it. -/
theorem primary_result_without_jacobians {K : Type} [Field K] :
    (∀ (pose : Pose2 K) (point : Point2 K) (H1 H2 : Bool),
      (transform_to pose point H1 H2).1 = (transform_to pose point false false).1) ∧
    (∀ (p1 p2 : Pose2 K) (H1 H2 : Bool),
      (between p1 p2 H1 H2).1 = (between p1 p2 false false).1) ∧
    (∀ (sqrt : K → K) (pose : Pose2 K) (point : Point2 K) (H1 H2 : Bool),
      (range_H sqrt pose point H1 H2).1 = range sqrt pose point ∧
      (range_H sqrt pose point H1 H2).1 = (range_H sqrt pose point false false).1) ∧
    (∀ (sqrt : K → K) (pose : Pose2 K) (point : Point2 K),
      (range_H sqrt pose point true true).1 =
        sqrt ((transform_to pose point false false).1.x
                * (transform_to pose point false false).1.x
              + (transform_to pose point false false).1.y
                * (transform_to pose point false false).1.y) ∧
      range sqrt pose point = (transform_to pose point false false).1.norm sqrt ∧
      (range_H sqrt pose point true true).1 = range sqrt pose point) ∧
    (∀ rb : RelativeBearing K, (∀ d, (rb.withDerivative d).1 = rb.value d) →
      ∀ (pose : Pose2 K) (point : Point2 K) (H1 H2 : Bool),
        (bearing_H rb pose point H1 H2).1 = bearing rb pose point ∧
        (bearing_H rb pose point H1 H2).1 = (bearing_H rb pose point false false).1) ∧
    (∀ (sqrt : K → K) (pose : Pose2 K) (point : Point2 K) (H1 H2 : Bool),
      (bearing_H (relativeBearing sqrt) pose point H1 H2).1
        = bearing (relativeBearing sqrt) pose point) := by
  refine ⟨fun pose point H1 H2 => ?_, fun p1 p2 H1 H2 => ?_, fun sqrt pose point H1 H2 => ?_,
    fun sqrt pose point => ⟨rfl, rfl, rfl⟩, fun rb hrb pose point H1 H2 => ?_,
    fun sqrt pose point H1 H2 => bearing_H_fst _ pose point H1 H2 rfl⟩
  · rw [transform_to_fst, transform_to_fst]
  · rw [between_fst, between_fst]
  · exact ⟨range_H_fst sqrt pose point H1 H2, by rw [range_H_fst, range_H_fst]⟩
  · exact ⟨bearing_H_fst rb pose point H1 H2 (hrb _),
      (bearing_H_fst rb pose point H1 H2 (hrb _)).trans rfl⟩

/-- Witness for C11 with `relativeBearing` as the spec describes it, on the
pose `((1, 0), (1, 1))` and the point `(4, 5)`. -/
theorem primary_result_without_jacobians_witness :
    (∀ d : Point2 ℝ, ((relativeBearing Real.sqrt).withDerivative d).1
        = (relativeBearing Real.sqrt).value d) ∧
    (bearing_H (relativeBearing Real.sqrt) (⟨⟨1, 0⟩, ⟨1, 1⟩⟩ : Pose2 ℝ) ⟨4, 5⟩ true true).1
      = bearing (relativeBearing Real.sqrt) ⟨⟨1, 0⟩, ⟨1, 1⟩⟩ ⟨4, 5⟩ :=
  ⟨fun _ => rfl,
   ((primary_result_without_jacobians.2.2.2.2.1 (relativeBearing Real.sqrt) (fun _ => rfl)
      ⟨⟨1, 0⟩, ⟨1, 1⟩⟩ ⟨4, 5⟩ true true).1)⟩

/-- C12: for poses `p1`, `p2` whose rotations satisfy `c² + s² = 1`, the
rotation `(c1c2 + s1s2, −s1c2 + c1s2)` of the pose returned by
`between(p1, p2)` satisfies `c² + s² = 1`. -/
theorem between_rotation_unit {K : Type} [Field K] (p1 p2 : Pose2 K) (h1 : p1.r.IsUnit)
    (h2 : p2.r.IsUnit) (H1 H2 : Bool) :
    (between p1 p2 H1 H2).1.r =
        ⟨p1.r.c * p2.r.c + p1.r.s * p2.r.s, -p1.r.s * p2.r.c + p1.r.c * p2.r.s⟩ ∧
    (between p1 p2 H1 H2).1.r.c * (between p1 p2 H1 H2).1.r.c
      + (between p1 p2 H1 H2).1.r.s * (between p1 p2 H1 H2).1.r.s = 1 :=
  ⟨by rw [between_fst], between_rot_isUnit p1 p2 h1 h2 H1 H2⟩

/-- Witness for C12 on the poses `((3/5, 4/5), (1, 2))` and
`((5/13, 12/13), (0, 0))` over the rationals. -/
theorem between_rotation_unit_witness :
    (⟨3 / 5, 4 / 5⟩ : Rot2 ℚ).IsUnit ∧ (⟨5 / 13, 12 / 13⟩ : Rot2 ℚ).IsUnit ∧
    (between (⟨⟨3 / 5, 4 / 5⟩, ⟨1, 2⟩⟩ : Pose2 ℚ) ⟨⟨5 / 13, 12 / 13⟩, ⟨0, 0⟩⟩ false false).1.r.c
        * (between (⟨⟨3 / 5, 4 / 5⟩, ⟨1, 2⟩⟩ : Pose2 ℚ)
            ⟨⟨5 / 13, 12 / 13⟩, ⟨0, 0⟩⟩ false false).1.r.c
      + (between (⟨⟨3 / 5, 4 / 5⟩, ⟨1, 2⟩⟩ : Pose2 ℚ)
            ⟨⟨5 / 13, 12 / 13⟩, ⟨0, 0⟩⟩ false false).1.r.s
        * (between (⟨⟨3 / 5, 4 / 5⟩, ⟨1, 2⟩⟩ : Pose2 ℚ)
            ⟨⟨5 / 13, 12 / 13⟩, ⟨0, 0⟩⟩ false false).1.r.s = 1 :=
  ⟨by norm_num [Rot2.IsUnit], by norm_num [Rot2.IsUnit],
   (between_rotation_unit ⟨⟨3 / 5, 4 / 5⟩, ⟨1, 2⟩⟩ ⟨⟨5 / 13, 12 / 13⟩, ⟨0, 0⟩⟩
      (by norm_num [Rot2.IsUnit]) (by norm_num [Rot2.IsUnit]) false false).2⟩

/-! ## The generated group functions -/

/-- C13: for a type whose `*`, `.inverse()` and `Identity()` satisfy the group
laws, the functions generated by `GTSAM_MULTIPLICATIVE_GROUP2` satisfy the three
axioms tested by `group::check_invariants` for all `a`, `b`:
`compose(a, inverse(a)) = identity`, `between(a, b) = compose(inverse(a), b)`,
`compose(a, between(a, b)) = b`; so `check_invariants` returns `true` for every
reflexive `equals`. -/
theorem multiplicative_group_axioms {G : Type} (o : MultiplicativeOps G) (h : o.IsGroup)
    (a b : G) :
    (GTSAM_MULTIPLICATIVE_GROUP2 o).compose a ((GTSAM_MULTIPLICATIVE_GROUP2 o).inverse a)
      = (GTSAM_MULTIPLICATIVE_GROUP2 o).identity ∧
    (GTSAM_MULTIPLICATIVE_GROUP2 o).between a b
      = (GTSAM_MULTIPLICATIVE_GROUP2 o).compose
          ((GTSAM_MULTIPLICATIVE_GROUP2 o).inverse a) b ∧
    (GTSAM_MULTIPLICATIVE_GROUP2 o).compose a ((GTSAM_MULTIPLICATIVE_GROUP2 o).between a b)
      = b ∧
    (∀ (Tol : Type) (equals : G → G → Tol → Bool) (tol : Tol),
      (∀ x, equals x x tol = true) →
      check_invariants (GTSAM_MULTIPLICATIVE_GROUP2 o) equals a b tol = true) := by
  have h3 : o.mul a (o.mul (o.inverse a) b) = b := by
    rw [← h.mul_assoc, h.mul_inverse, h.Identity_mul]
  refine ⟨h.mul_inverse a, rfl, h3, fun Tol equals tol hrefl => ?_⟩
  simp only [check_invariants, GTSAM_MULTIPLICATIVE_GROUP2, h.mul_inverse, h3, hrefl,
    Bool.and_self]

theorem permOps_isGroup : permOps.IsGroup where
  mul_assoc := mul_assoc
  Identity_mul := one_mul
  mul_Identity := mul_one
  inverse_mul := inv_mul_cancel
  mul_inverse := mul_inv_cancel

/-- Witness for C13 on the permutations of three points, at the transpositions
`(0 1)` and `(1 2)`. -/
theorem multiplicative_group_axioms_witness :
    permOps.IsGroup ∧
    (GTSAM_MULTIPLICATIVE_GROUP2 permOps).compose (Equiv.swap 0 1)
        ((GTSAM_MULTIPLICATIVE_GROUP2 permOps).between (Equiv.swap 0 1) (Equiv.swap 1 2))
      = Equiv.swap 1 2 :=
  ⟨permOps_isGroup,
   (multiplicative_group_axioms permOps permOps_isGroup (Equiv.swap 0 1) (Equiv.swap 1 2)).2.2.1⟩
theorem permAddOps_isGroup : permAddOps.IsGroup where
  add_assoc := mul_assoc
  Identity_add := one_mul
  add_Identity := mul_one
  neg_add := inv_mul_cancel
  add_neg := mul_inv_cancel
  sub_eq _ _ := rfl

theorem intOps_isGroup : intOps.IsGroup where
  add_assoc := Int.add_assoc
  Identity_add := Int.zero_add
  add_Identity := Int.add_zero
  neg_add := Int.add_left_neg
  add_neg := Int.add_right_neg
  sub_eq _ _ := Int.sub_eq_add_neg

/-- C14, as stated, fails: the permutations of three points written additively
satisfy the additive group laws of the claim, and at `a = (0 1)`, `b = (1 2)`
the functions generated by `GTSAM_ADDITIVE_GROUP1` violate the axioms tested by
`group::check_invariants`: `between(a, b) = b − a` and
`compose(inverse(a), b) = −a + b` send `0` to `2` and to `1`. -/
theorem additive_group_axioms_need_comm :
    permAddOps.IsGroup ∧
    ¬ (GTSAM_ADDITIVE_GROUP1 permAddOps).Axioms (Equiv.swap 0 1) (Equiv.swap 1 2) := by
  refine ⟨permAddOps_isGroup, fun h => ?_⟩
  have h2 := congrArg (fun f : Equiv.Perm (Fin 3) => f 0) h.2.1
  revert h2
  simp only [GTSAM_ADDITIVE_GROUP1, permAddOps, Equiv.swap_inv, Equiv.Perm.coe_mul,
    Function.comp_apply]
  decide

/-- C14, amended: for a type whose `+`, binary `-`, unary `-` and `Identity()`
satisfy the additive group laws and whose `+` is commutative, the functions
generated by `GTSAM_ADDITIVE_GROUP1` satisfy the three axioms tested by
`group::check_invariants` for all `a`, `b`; so `check_invariants` returns `true`
for every reflexive `equals`. -/
theorem additive_group_axioms {G : Type} (o : AdditiveOps G) (h : o.IsGroup)
    (hcomm : ∀ a b, o.add a b = o.add b a) (a b : G) :
    (GTSAM_ADDITIVE_GROUP1 o).Axioms a b ∧
    (∀ (Tol : Type) (equals : G → G → Tol → Bool) (tol : Tol),
      (∀ x, equals x x tol = true) →
      check_invariants (GTSAM_ADDITIVE_GROUP1 o) equals a b tol = true) := by
  have h2 : o.sub b a = o.add (o.neg a) b := by rw [h.sub_eq, hcomm]
  have h3 : o.add a (o.sub b a) = b := by
    rw [h2, ← h.add_assoc, h.add_neg, h.Identity_add]
  refine ⟨⟨h.add_neg a, h2, h3⟩, fun Tol equals tol hrefl => ?_⟩
  show (equals (o.add a (o.neg a)) o.Identity tol
      && equals (o.sub b a) (o.add (o.neg a) b) tol
      && equals (o.add a (o.sub b a)) b tol) = true
  rw [h3, h.add_neg a, h2, hrefl, hrefl, hrefl]
  rfl

/-- Witness for the amended C14 on the integers, at `a = 5`, `b = -3`. -/
theorem additive_group_axioms_witness :
    intOps.IsGroup ∧ (∀ a b : ℤ, intOps.add a b = intOps.add b a) ∧
    (GTSAM_ADDITIVE_GROUP1 intOps).Axioms 5 (-3) :=
  ⟨intOps_isGroup, Int.add_comm,
   (additive_group_axioms intOps intOps_isGroup Int.add_comm 5 (-3)).1⟩

/-! ## The tag lattice -/

theorem isA_of_is_base_of (b d : Tag) (h : is_base_of b d = true) : d.IsA b := by
  cases b <;> cases d <;>
    first
    | exact Relation.ReflTransGen.refl
    | exact Relation.ReflTransGen.single (by unfold Tag.Derives; decide)
    | exact Relation.ReflTransGen.head
        (show Tag.Derives Tag.vector_space_tag Tag.lie_group_tag by
          unfold Tag.Derives; decide)
        (Relation.ReflTransGen.single (by unfold Tag.Derives; decide))
    | exact absurd h (by decide)

theorem is_base_of_of_isA (b d : Tag) (h : d.IsA b) : is_base_of b d = true := by
  have key : ∀ b a c : Tag, c ∈ a.bases → is_base_of b c = true → is_base_of b a = true := by
    intro b a c
    cases b <;> cases a <;> cases c <;> decide
  induction h using Relation.ReflTransGen.head_induction_on with
  | refl => cases b <;> rfl
  | head hstep _ ih => exact key _ _ _ hstep ih

theorem is_base_of_iff_isA (b d : Tag) : is_base_of b d = true ↔ d.IsA b :=
  ⟨isA_of_is_base_of b d, is_base_of_of_isA b d⟩

/-- C15: with is-a the reflexive-transitive closure of the declared tag
inheritance, each concept's tag assertion accepts a tag exactly when the tag
is-a the concept's tag; `IsManifold` accepts exactly `manifold_tag`,
`lie_group_tag`, `vector_space_tag`, `IsGroup` exactly `group_tag`,
`lie_group_tag`, `vector_space_tag`, `IsLieGroup` exactly `lie_group_tag`,
`vector_space_tag`, and `IsVectorSpace` exactly `vector_space_tag`; so what
`IsVectorSpace` accepts `IsLieGroup` accepts, and what `IsLieGroup` accepts both
`IsManifold` and `IsGroup` accept. -/
theorem tag_assertions_accept (t : Tag) :
    ((IsManifold_tag t = true ↔ t.IsA Tag.manifold_tag) ∧
     (IsGroup_tag t = true ↔ t.IsA Tag.group_tag) ∧
     (IsLieGroup_tag t = true ↔ t.IsA Tag.lie_group_tag) ∧
     (IsVectorSpace_tag t = true ↔ t.IsA Tag.vector_space_tag)) ∧
    ((IsManifold_tag t = true ↔
        t = Tag.manifold_tag ∨ t = Tag.lie_group_tag ∨ t = Tag.vector_space_tag) ∧
     (IsGroup_tag t = true ↔
        t = Tag.group_tag ∨ t = Tag.lie_group_tag ∨ t = Tag.vector_space_tag) ∧
     (IsLieGroup_tag t = true ↔ t = Tag.lie_group_tag ∨ t = Tag.vector_space_tag) ∧
     (IsVectorSpace_tag t = true ↔ t = Tag.vector_space_tag)) ∧
    (IsVectorSpace_tag t = true → IsLieGroup_tag t = true) ∧
    (IsLieGroup_tag t = true → IsManifold_tag t = true ∧ IsGroup_tag t = true) := by
  refine ⟨⟨is_base_of_iff_isA _ t, is_base_of_iff_isA _ t, is_base_of_iff_isA _ t,
    is_base_of_iff_isA _ t⟩, ?_, ?_, ?_⟩ <;> cases t <;> decide

/-- Witness for C15 at `vector_space_tag`. -/
theorem tag_assertions_accept_witness :
    IsVectorSpace_tag Tag.vector_space_tag = true ∧
    IsLieGroup_tag Tag.vector_space_tag = true ∧
    IsManifold_tag Tag.vector_space_tag = true ∧
    IsGroup_tag Tag.vector_space_tag = true :=
  ⟨by decide,
   (tag_assertions_accept Tag.vector_space_tag).2.2.1 (by decide),
   (tag_assertions_accept Tag.vector_space_tag).2.2.2
     ((tag_assertions_accept Tag.vector_space_tag).2.2.1 (by decide))⟩
/-! ## The homogeneous matrix -/

theorem Pose2.matrix_eq {K : Type} [Field K] (pose : Pose2 K) :
    pose.matrix =
      !![pose.r.c, -pose.r.s, pose.t.x; pose.r.s, pose.r.c, pose.t.y; 0, 0, 1] := by
  ext i j
  fin_cases i <;> fin_cases j <;> rfl

/-- C16: for a pose with rotation `(c, s)` and translation `(tx, ty)`,
`matrix()` returns `[[c, −s, tx], [s, c, ty], [0, 0, 1]]`, the 2×2 rotation
matrix stacked over a zero row with the column `(tx, ty, 1)` appended. -/
theorem matrix_homogeneous {K : Type} [Field K] (pose : Pose2 K) :
    pose.matrix =
      !![pose.r.c, -pose.r.s, pose.t.x; pose.r.s, pose.r.c, pose.t.y; 0, 0, 1] ∧
    pose.matrix =
      collect (stack pose.r.matrix (zeros 1 2))
        (!![pose.t.x; pose.t.y; 1] : Matrix (Fin 3) (Fin 1) K) ∧
    pose.r.matrix = !![pose.r.c, -pose.r.s; pose.r.s, pose.r.c] :=
  ⟨Pose2.matrix_eq pose, rfl, rfl⟩

/-- C19: for poses `p1`, `p2` with `p1`'s rotation of unit norm, the
homogeneous matrices satisfy `matrix(p1) · matrix(between(p1, p2)) = matrix(p2)`
as 3×3 matrix products. -/
theorem matrix_mul_between {K : Type} [Field K] (p1 p2 : Pose2 K) (h1 : p1.r.IsUnit)
    (H1 H2 : Bool) :
    p1.matrix * (between p1 p2 H1 H2).1.matrix = p2.matrix := by
  rw [between_fst, Pose2.matrix_eq, Pose2.matrix_eq, Pose2.matrix_eq]
  obtain ⟨⟨c1, s1⟩, ⟨x1, y1⟩⟩ := p1
  obtain ⟨⟨c2, s2⟩, ⟨x2, y2⟩⟩ := p2
  simp only [Rot2.IsUnit] at h1
  ext i j
  fin_cases i <;> fin_cases j <;>
    simp [Matrix.mul_apply, Fin.sum_univ_three, Rot2.unrotate, Point2.sub]
  · linear_combination c2 * h1
  · linear_combination (-s2) * h1
  · linear_combination (x2 - x1) * h1
  · linear_combination s2 * h1
  · linear_combination c2 * h1
  · linear_combination (y2 - y1) * h1

/-- Witness for C19 on the poses `((3/5, 4/5), (1, 2))` and `((0, 1), (3, 4))`
over the rationals. -/
theorem matrix_mul_between_witness :
    (⟨3 / 5, 4 / 5⟩ : Rot2 ℚ).IsUnit ∧
    (⟨⟨3 / 5, 4 / 5⟩, ⟨1, 2⟩⟩ : Pose2 ℚ).matrix
        * (between (⟨⟨3 / 5, 4 / 5⟩, ⟨1, 2⟩⟩ : Pose2 ℚ) ⟨⟨0, 1⟩, ⟨3, 4⟩⟩ true true).1.matrix
      = (⟨⟨0, 1⟩, ⟨3, 4⟩⟩ : Pose2 ℚ).matrix :=
  ⟨by norm_num [Rot2.IsUnit],
   matrix_mul_between ⟨⟨3 / 5, 4 / 5⟩, ⟨1, 2⟩⟩ ⟨⟨0, 1⟩, ⟨3, 4⟩⟩ (by norm_num [Rot2.IsUnit])
     true true⟩
/-! ## Chain rule in `range` and `bearing` -/

/-- C17: each Jacobian requested from `range` and from `bearing` is the product
`D · J` of a 1×2 row `D` with the matching Jacobian `J` of `transform_to` at the
same pose and point, `H1 = D · [[-1, 0, q.y], [0, -1, -q.x]]` and `H2 = D · Rᵀ`;
for `range`, `D = [x / n, y / n]` with `(x, y) = q` the local-frame point and
`n = sqrt(x² + y²)`; for `bearing`, `D` is the row that `relativeBearing` writes
at `q`. -/
theorem range_bearing_chain_rule {K : Type} [Field K] (sqrt : K → K)
    (rb : RelativeBearing K) (pose : Pose2 K) (point : Point2 K) :
    (∀ H2 : Bool, (range_H sqrt pose point true H2).2.1 =
      some ((!![(transform_to pose point false false).1.x
                  / sqrt ((transform_to pose point false false).1.x
                        * (transform_to pose point false false).1.x
                      + (transform_to pose point false false).1.y
                        * (transform_to pose point false false).1.y),
                (transform_to pose point false false).1.y
                  / sqrt ((transform_to pose point false false).1.x
                        * (transform_to pose point false false).1.x
                      + (transform_to pose point false false).1.y
                        * (transform_to pose point false false).1.y)] :
              Matrix (Fin 1) (Fin 2) K)
            * (!![-1, 0, (transform_to pose point false false).1.y;
                  0, -1, -(transform_to pose point false false).1.x] :
              Matrix (Fin 2) (Fin 3) K))) ∧
    (∀ H1 : Bool, (range_H sqrt pose point H1 true).2.2 =
      some ((!![(transform_to pose point false false).1.x
                  / sqrt ((transform_to pose point false false).1.x
                        * (transform_to pose point false false).1.x
                      + (transform_to pose point false false).1.y
                        * (transform_to pose point false false).1.y),
                (transform_to pose point false false).1.y
                  / sqrt ((transform_to pose point false false).1.x
                        * (transform_to pose point false false).1.x
                      + (transform_to pose point false false).1.y
                        * (transform_to pose point false false).1.y)] :
              Matrix (Fin 1) (Fin 2) K)
            * (!![pose.r.c, pose.r.s; -pose.r.s, pose.r.c] : Matrix (Fin 2) (Fin 2) K))) ∧
    (∀ H2 : Bool, (bearing_H rb pose point true H2).2.1 =
      some ((rb.withDerivative (transform_to pose point false false).1).2
            * (!![-1, 0, (transform_to pose point false false).1.y;
                  0, -1, -(transform_to pose point false false).1.x] :
              Matrix (Fin 2) (Fin 3) K))) ∧
    (∀ H1 : Bool, (bearing_H rb pose point H1 true).2.2 =
      some ((rb.withDerivative (transform_to pose point false false).1).2
            * (!![pose.r.c, pose.r.s; -pose.r.s, pose.r.c] : Matrix (Fin 2) (Fin 2) K))) ∧
    (transform_to pose point true true).2.1 =
      some (!![-1, 0, (transform_to pose point false false).1.y;
               0, -1, -(transform_to pose point false false).1.x]) ∧
    (transform_to pose point true true).2.2 =
      some (!![pose.r.c, pose.r.s; -pose.r.s, pose.r.c]) := by
  refine ⟨fun H2 => ?_, fun H1 => ?_, fun H2 => ?_, fun H1 => ?_, rfl, rfl⟩
  · cases H2 <;> rfl
  · cases H1 <;> rfl
  · cases H2 <;> rfl
  · cases H1 <;> rfl

/-- C20: when the local-frame vector `q = (x, y)` has non-zero norm `n`, the
`H1` returned by `range` is `[−x / n, −y / n, 0]`; its third column, the one
that multiplies the perturbation of the pose's rotation, is zero. -/
theorem range_H1_row {K : Type} [Field K] (sqrt : K → K) (pose : Pose2 K) (point : Point2 K)
    (hn : (transform_to pose point false false).1.norm sqrt ≠ 0) (H2 : Bool) :
    (range_H sqrt pose point true H2).2.1 =
      some !![-(transform_to pose point false false).1.x
                / (transform_to pose point false false).1.norm sqrt,
              -(transform_to pose point false false).1.y
                / (transform_to pose point false false).1.norm sqrt,
              0] := by
  have hH : (range_H sqrt pose point true H2).2.1 =
      some ((!![(pose.r.unrotate (point.sub pose.t)).x
                  / (pose.r.unrotate (point.sub pose.t)).norm sqrt,
                (pose.r.unrotate (point.sub pose.t)).y
                  / (pose.r.unrotate (point.sub pose.t)).norm sqrt] :
              Matrix (Fin 1) (Fin 2) K)
            * Dtransform_to1 pose point) := by
    cases H2 <;> rfl
  rw [hH, transform_to_fst, Dtransform_to1_eq]
  rw [transform_to_fst] at hn
  congr 1
  ext i j
  fin_cases i
  fin_cases j <;> simp [Matrix.mul_apply, Fin.sum_univ_two]
  · ring
  · ring
  · field_simp
    ring

/-- Witness for C20 on the pose `((1, 0), (0, 0))` and the point `(3, 4)`. -/
theorem range_H1_row_witness :
    (transform_to (⟨⟨1, 0⟩, ⟨0, 0⟩⟩ : Pose2 ℝ) ⟨3, 4⟩ false false).1.norm Real.sqrt ≠ 0 ∧
    (range_H Real.sqrt (⟨⟨1, 0⟩, ⟨0, 0⟩⟩ : Pose2 ℝ) ⟨3, 4⟩ true false).2.1 =
      some !![-(transform_to (⟨⟨1, 0⟩, ⟨0, 0⟩⟩ : Pose2 ℝ) ⟨3, 4⟩ false false).1.x
                / (transform_to (⟨⟨1, 0⟩, ⟨0, 0⟩⟩ : Pose2 ℝ) ⟨3, 4⟩ false false).1.norm
                    Real.sqrt,
              -(transform_to (⟨⟨1, 0⟩, ⟨0, 0⟩⟩ : Pose2 ℝ) ⟨3, 4⟩ false false).1.y
                / (transform_to (⟨⟨1, 0⟩, ⟨0, 0⟩⟩ : Pose2 ℝ) ⟨3, 4⟩ false false).1.norm
                    Real.sqrt,
              0] :=
  have hn : (transform_to (⟨⟨1, 0⟩, ⟨0, 0⟩⟩ : Pose2 ℝ) ⟨3, 4⟩ false false).1.norm Real.sqrt
      ≠ 0 := by
    have h25 : Real.sqrt 25 = 5 := by
      rw [show (25 : ℝ) = 5 ^ 2 by norm_num]
      exact Real.sqrt_sq (by norm_num)
    simp only [transform_to_fst, Point2.norm, Rot2.unrotate, Point2.sub]
    norm_num [h25]
  ⟨hn, range_H1_row Real.sqrt ⟨⟨1, 0⟩, ⟨0, 0⟩⟩ ⟨3, 4⟩ hn false⟩
/-! ## Equivariance of `between` in its second argument -/

theorem between_compose_right {K : Type} [Field K] (p1 p2 d : Pose2 K)
    (H1 H2 H3 H4 : Bool) :
    (between p1 (compose p2 d) H1 H2).1 = compose (between p1 p2 H3 H4).1 d := by
  rw [between_fst, between_fst]
  obtain ⟨⟨c1, s1⟩, ⟨x1, y1⟩⟩ := p1
  obtain ⟨⟨c2, s2⟩, ⟨x2, y2⟩⟩ := p2
  obtain ⟨⟨c3, s3⟩, ⟨x3, y3⟩⟩ := d
  simp only [compose, Rot2.compose, Rot2.rotate, Rot2.unrotate, Point2.add, Point2.sub,
    Pose2.mk.injEq, Rot2.mk.injEq, Point2.mk.injEq]
  refine ⟨⟨?_, ?_⟩, ?_, ?_⟩ <;> ring

theorem compose_inverse_compose {K : Type} [Field K] (r e : Pose2 K) (hr : r.r.IsUnit) :
    compose (inverse r) (compose r e) = e := by
  obtain ⟨⟨c, s⟩, ⟨a, b⟩⟩ := r
  obtain ⟨⟨c3, s3⟩, ⟨x3, y3⟩⟩ := e
  simp only [Rot2.IsUnit] at hr
  simp only [compose, inverse, Rot2.compose, Rot2.inverse, Rot2.rotate, Rot2.unrotate,
    Point2.add, Pose2.mk.injEq, Rot2.mk.injEq, Point2.mk.injEq]
  refine ⟨⟨?_, ?_⟩, ?_, ?_⟩
  · linear_combination c3 * hr
  · linear_combination s3 * hr
  · linear_combination x3 * hr
  · linear_combination y3 * hr

theorem arg_cos_sin {θ : ℝ} (hθ : θ ∈ Set.Ioo (-Real.pi) Real.pi) :
    Complex.arg ⟨Real.cos θ, Real.sin θ⟩ = θ := by
  have h := arg_cos_neg_sin (show -θ ∈ Set.Ioo (-Real.pi) Real.pi from
    ⟨by linarith [hθ.2], by linarith [hθ.1]⟩)
  simpa using h

theorem betweenPerturbed2_eq (p1 p2 : Pose2 ℝ) (h1 : p1.r.IsUnit) (h2 : p2.r.IsUnit)
    (ξ : Fin 3 → ℝ) :
    betweenPerturbed2 p1 p2 ξ =
      ![ξ 0, ξ 1, Complex.arg ⟨Real.cos (ξ 2), Real.sin (ξ 2)⟩] := by
  unfold betweenPerturbed2
  rw [between_compose_right p1 p2 _ false false false false]
  unfold localCoordinates
  rw [compose_inverse_compose _ _ (between_rot_isUnit p1 p2 h1 h2 false false)]
  rfl

theorem hasFDerivAt_betweenPerturbed2 (p1 p2 : Pose2 ℝ) (h1 : p1.r.IsUnit)
    (h2 : p2.r.IsUnit) :
    HasFDerivAt (betweenPerturbed2 p1 p2)
      (LinearMap.toContinuousLinearMap
        (Matrix.toLin' (1 : Matrix (Fin 3) (Fin 3) ℝ))) 0 := by
  have hid : HasFDerivAt (fun ξ : Fin 3 → ℝ => ξ)
      (LinearMap.toContinuousLinearMap (Matrix.toLin' (1 : Matrix (Fin 3) (Fin 3) ℝ))) 0 := by
    refine (hasFDerivAt_id (0 : Fin 3 → ℝ)).congr_fderiv ?_
    ext v
    simp
  refine hid.congr_of_eventuallyEq ?_
  have hmem : ∀ᶠ ξ : Fin 3 → ℝ in nhds 0, ξ 2 ∈ Set.Ioo (-Real.pi) Real.pi := by
    have hc : ContinuousAt (fun ξ : Fin 3 → ℝ => ξ 2) 0 := (continuous_apply 2).continuousAt
    exact hc.preimage_mem_nhds
      (Ioo_mem_nhds (by simp [Real.pi_pos]) (by simp [Real.pi_pos]))
  filter_upwards [hmem] with ξ hξ
  rw [betweenPerturbed2_eq p1 p2 h1 h2, arg_cos_sin hξ]
  ext i
  fin_cases i <;> rfl

/-- C18: for all poses `p1`, `p2`, `d`, `between` is equivariant under a right
displacement of its second argument,
`between(p1, compose(p2, d)) = compose(between(p1, p2), d)`; and for unit-norm
rotations the constant identity `H2` is the Jacobian at `ξ = 0` of `ξ ↦` local
coordinates of `between(p1, compose(p2, Pose2(ξ)))` about `between(p1, p2)`. -/
theorem between_equivariant_right {K : Type} [Field K] :
    (∀ (p1 p2 d : Pose2 K) (H1 H2 : Bool),
      (between p1 (compose p2 d) H1 H2).1 = compose (between p1 p2 H1 H2).1 d) ∧
    (∀ p1 p2 : Pose2 ℝ, p1.r.IsUnit → p2.r.IsUnit →
      ∃ H : Matrix (Fin 3) (Fin 3) ℝ,
        (∀ H1 : Bool, (between p1 p2 H1 true).2.2 = some H) ∧ H = 1 ∧
        HasFDerivAt (betweenPerturbed2 p1 p2)
          (LinearMap.toContinuousLinearMap (Matrix.toLin' H)) 0) := by
  refine ⟨fun p1 p2 d H1 H2 => between_compose_right p1 p2 d H1 H2 H1 H2,
    fun p1 p2 h1 h2 => ⟨1, fun H1 => ?_, rfl, hasFDerivAt_betweenPerturbed2 p1 p2 h1 h2⟩⟩
  cases H1 <;> rfl

/-- Witness for C18 on `p1 = ((0, 1), (1, 2))` and `p2 = ((1, 0), (3, 4))`. -/
theorem between_equivariant_right_witness :
    (⟨0, 1⟩ : Rot2 ℝ).IsUnit ∧ (⟨1, 0⟩ : Rot2 ℝ).IsUnit ∧
    ∃ H : Matrix (Fin 3) (Fin 3) ℝ,
      (∀ H1 : Bool,
        (between (⟨⟨0, 1⟩, ⟨1, 2⟩⟩ : Pose2 ℝ) ⟨⟨1, 0⟩, ⟨3, 4⟩⟩ H1 true).2.2 = some H) ∧
      H = 1 ∧
      HasFDerivAt (betweenPerturbed2 ⟨⟨0, 1⟩, ⟨1, 2⟩⟩ ⟨⟨1, 0⟩, ⟨3, 4⟩⟩)
        (LinearMap.toContinuousLinearMap (Matrix.toLin' H)) 0 :=
  ⟨by norm_num [Rot2.IsUnit], by norm_num [Rot2.IsUnit],
   (@between_equivariant_right ℝ _).2 ⟨⟨0, 1⟩, ⟨1, 2⟩⟩ ⟨⟨1, 0⟩, ⟨3, 4⟩⟩
     (by norm_num [Rot2.IsUnit]) (by norm_num [Rot2.IsUnit])⟩

end gtsam
